import Mathlib

/-!
Verification of `consistent_df` (pandas DataFrame utilities) against its
natural-language specification.

Shallow embedding of the repository's modules:
* `string.py` / `df_to_consistent_str` : canonical string fingerprints
* `nest.py` / `nest`, `unnest`         : nesting / unnesting reshaping
* `enforce_schema.py` / `enforce_schema` : schema validation and coercion

Tables are modelled as ordered lists of named columns over row lists; machine
data (pandas scalars) are modelled by a small scalar sum type.  All
definitions are executable so that concrete counterexamples and witnesses
evaluate by `decide` / `rfl`.
-/

namespace ConsistentDf

/-! ## Scalar values

A pandas cell value in the modules under study is an integer, a string, or a
missing value (`None` / `NaN` / `NA`, rendered uniformly).  The ordering
mirrors pandas sorting semantics used by `sort_values(..., na_position="last")`
and by `groupby(sort=True)`: within a homogeneous column, integers sort by
value, strings lexicographically, and missing values sort last.  (Across
kinds pandas would raise; the model totalises the order, which is inert for
homogeneous columns.) -/

inductive Val where
  | vnull
  | vint (n : Int)
  | vstr (s : String)
deriving DecidableEq, Repr

/-- Comparison used for sorting scalar values: nulls last, ints by value,
strings lexicographically. -/
def valLe : Val → Val → Bool
  | .vnull, .vnull => true
  | .vnull, _ => false
  | _, .vnull => true
  | .vint m, .vint n => decide (m ≤ n)
  | .vint _, .vstr _ => true
  | .vstr _, .vint _ => false
  | .vstr s, .vstr t => decide (s ≤ t)

theorem valLe_total (a b : Val) : valLe a b || valLe b a := by
  cases a <;> cases b <;> simp [valLe] <;> first
    | exact Int.le_total _ _
    | exact le_total _ _

theorem valLe_trans (a b c : Val) (h₁ : valLe a b) (h₂ : valLe b c) : valLe a c := by
  cases a <;> cases b <;> cases c <;> simp_all [valLe] <;> exact le_trans h₁ h₂

theorem valLe_antisymm (a b : Val) (h₁ : valLe a b) (h₂ : valLe b a) : a = b := by
  cases a <;> cases b <;>
    simp only [valLe, decide_eq_true_eq, Bool.false_eq_true] at h₁ h₂ <;>
    first
      | rfl
      | exact h₁.elim
      | exact h₂.elim
      | exact congrArg Val.vint (le_antisymm h₁ h₂)
      | exact congrArg Val.vstr (le_antisymm h₁ h₂)

/-- Lexicographic comparison of rows (lists of scalar values), as used for
multi-column `sort_values` and for the ordering of `groupby` keys: compare
column by column, ties (equal values, where a missing value ties only with a
missing value) resolved by the next column. -/
def rowLe : List Val → List Val → Bool
  | [], _ => true
  | _ :: _, [] => false
  | a :: as, b :: bs => if a = b then rowLe as bs else valLe a b

theorem rowLe_total (a b : List Val) : rowLe a b || rowLe b a := by
  induction a generalizing b with
  | nil => simp [rowLe]
  | cons x xs ih =>
    cases b with
    | nil => simp [rowLe]
    | cons y ys =>
      by_cases hxy : x = y
      · subst hxy; simpa [rowLe] using ih ys
      · have hyx : ¬ y = x := fun h => hxy h.symm
        simpa [rowLe, hxy, hyx] using valLe_total x y

theorem rowLe_trans (a b c : List Val) (h₁ : rowLe a b) (h₂ : rowLe b c) : rowLe a c := by
  induction a generalizing b c with
  | nil => simp [rowLe]
  | cons x xs ih =>
    cases b with
    | nil => simp [rowLe] at h₁
    | cons y ys =>
      cases c with
      | nil => simp [rowLe] at h₂
      | cons z zs =>
        by_cases hxy : x = y
        · subst hxy
          by_cases hxz : x = z
          · subst hxz
            simp only [rowLe, if_pos rfl] at h₁ h₂ ⊢
            exact ih ys zs h₁ h₂
          · simp only [rowLe, if_pos rfl] at h₁
            simpa [rowLe, hxz] using (by simpa [rowLe, hxz] using h₂)
        · by_cases hyz : y = z
          · subst hyz
            simpa [rowLe, hxy] using (by simpa [rowLe, hxy] using h₁)
          · have h₁' : valLe x y := by simpa [rowLe, hxy] using h₁
            have h₂' : valLe y z := by simpa [rowLe, hyz] using h₂
            by_cases hxz : x = z
            · subst hxz
              exact absurd (valLe_antisymm _ _ h₁' h₂') hxy
            · simpa [rowLe, hxz] using valLe_trans x y z h₁' h₂'

theorem rowLe_antisymm (a b : List Val) (h₁ : rowLe a b) (h₂ : rowLe b a) : a = b := by
  induction a generalizing b with
  | nil =>
    cases b with
    | nil => rfl
    | cons y ys => simp [rowLe] at h₂
  | cons x xs ih =>
    cases b with
    | nil => simp [rowLe] at h₁
    | cons y ys =>
      by_cases hxy : x = y
      · subst hxy
        simp only [rowLe, if_pos rfl] at h₁ h₂
        rw [ih ys h₁ h₂]
      · have hyx : ¬ y = x := fun h => hxy h.symm
        have h₁' : valLe x y := by simpa [rowLe, hxy] using h₁
        have h₂' : valLe y x := by simpa [rowLe, hyx] using h₂
        exact absurd (valLe_antisymm _ _ h₁' h₂') hxy

/-- Lexicographic comparison of character lists by code point, ties (equal
characters) resolved by the remainder. -/
def charListLe : List Char → List Char → Bool
  | [], _ => true
  | _ :: _, [] => false
  | a :: as, b :: bs => if a = b then charListLe as bs else decide (a.toNat < b.toNat)

/-- Boolean string comparison (Python `sorted` on column names compares
strings lexicographically by code point). -/
def strLeB (a b : String) : Bool := charListLe a.data b.data

theorem char_toNat_inj {a b : Char} (h : a.toNat = b.toNat) : a = b :=
  Char.ext (UInt32.ext h)

theorem charListLe_total (a b : List Char) : charListLe a b || charListLe b a := by
  induction a generalizing b with
  | nil => simp [charListLe]
  | cons x xs ih =>
    cases b with
    | nil => simp [charListLe]
    | cons y ys =>
      by_cases hxy : x = y
      · subst hxy; simpa [charListLe] using ih ys
      · have hyx : ¬ y = x := fun h => hxy h.symm
        have hne : x.toNat ≠ y.toNat := fun h => hxy (char_toNat_inj h)
        rcases Nat.lt_or_ge x.toNat y.toNat with h | h
        · simp [charListLe, hxy, h]
        · have : y.toNat < x.toNat := lt_of_le_of_ne h (fun hh => hne hh.symm)
          simp [charListLe, hxy, hyx, this]

theorem charListLe_trans (a b c : List Char) (h₁ : charListLe a b) (h₂ : charListLe b c) :
    charListLe a c := by
  induction a generalizing b c with
  | nil => simp [charListLe]
  | cons x xs ih =>
    cases b with
    | nil => simp [charListLe] at h₁
    | cons y ys =>
      cases c with
      | nil => simp [charListLe] at h₂
      | cons z zs =>
        by_cases hxy : x = y
        · subst hxy
          by_cases hxz : x = z
          · subst hxz
            simp only [charListLe, if_pos rfl] at h₁ h₂ ⊢
            exact ih ys zs h₁ h₂
          · simpa [charListLe, hxz] using (by simpa [charListLe, hxz] using h₂)
        · by_cases hyz : y = z
          · subst hyz
            simpa [charListLe, hxy] using (by simpa [charListLe, hxy] using h₁)
          · have h₁' : x.toNat < y.toNat := by
              simpa [charListLe, hxy] using h₁
            have h₂' : y.toNat < z.toNat := by
              simpa [charListLe, hyz] using h₂
            by_cases hxz : x = z
            · subst hxz
              exact absurd (lt_trans h₁' h₂') (lt_irrefl _)
            · simpa [charListLe, hxz] using lt_trans h₁' h₂'

theorem charListLe_antisymm (a b : List Char) (h₁ : charListLe a b) (h₂ : charListLe b a) :
    a = b := by
  induction a generalizing b with
  | nil =>
    cases b with
    | nil => rfl
    | cons y ys => simp [charListLe] at h₂
  | cons x xs ih =>
    cases b with
    | nil => simp [charListLe] at h₁
    | cons y ys =>
      by_cases hxy : x = y
      · subst hxy
        simp only [charListLe, if_pos rfl] at h₁ h₂
        rw [ih ys h₁ h₂]
      · have hyx : ¬ y = x := fun h => hxy h.symm
        have h₁' : x.toNat < y.toNat := by simpa [charListLe, hxy] using h₁
        have h₂' : y.toNat < x.toNat := by simpa [charListLe, hyx] using h₂
        exact absurd (lt_trans h₁' h₂') (lt_irrefl _)

/-- The stable sort used throughout the model (Python `sorted`, pandas
`sort_values` and sorted `groupby` all produce the sorted permutation, which
is unique for an antisymmetric total order). -/
def sortBy {α : Type} (le : α → α → Bool) (l : List α) : List α :=
  List.insertionSort (fun a b => le a b = true) l

/-- Sorting two lists that are permutations of each other by a transitive,
total, antisymmetric comparison yields the same list. -/
theorem sortBy_eq_of_perm {α : Type} (le : α → α → Bool)
    (htrans : ∀ a b c, le a b → le b c → le a c)
    (htotal : ∀ a b, le a b || le b a)
    (hanti : ∀ a b, le a b → le b a → a = b)
    {l₁ l₂ : List α} (h : l₁.Perm l₂) :
    sortBy le l₁ = sortBy le l₂ := by
  haveI : IsAntisymm α (fun a b => le a b = true) := ⟨hanti⟩
  haveI : IsTotal α (fun a b => le a b = true) :=
    ⟨fun a b => by simpa using Bool.or_eq_true_iff.mp (htotal a b)⟩
  haveI : IsTrans α (fun a b => le a b = true) := ⟨htrans⟩
  exact List.eq_of_perm_of_sorted
    (((List.perm_insertionSort _ l₁).trans h).trans (List.perm_insertionSort _ l₂).symm)
    (List.sorted_insertionSort _ l₁) (List.sorted_insertionSort _ l₂)

/-- `sortBy` permutes its input. -/
theorem sortBy_perm {α : Type} (le : α → α → Bool) (l : List α) :
    (sortBy le l).Perm l :=
  List.perm_insertionSort _ l

/-! ## `string.py`: `df_to_consistent_str`

A scalar table (`SFrame`): ordered named columns over ordered rows.  The
canonical stringifier never sees nested-table cells (spec §3: the
nested-table cell variant occurs only inside nest/unnest), so its frames
hold scalar values. -/

structure SFrame where
  cols : List String
  rows : List (List Val)
deriving DecidableEq, Repr

/-- Name-based cell access in a row laid out along `cols`; absent columns
read as missing (pandas `reindex` fills absent columns with `NaN`). -/
def lookupV : List String → List Val → String → Val
  | [], _, _ => .vnull
  | _ :: _, [], _ => .vnull
  | c' :: cs, v :: vs, c => if c' = c then v else lookupV cs vs c

/-- Re-express a row laid out along `src` column names along the `tgt`
column names (pandas `df.reindex(tgt, axis=1)` at row level). -/
def reindexRow (src tgt : List String) (r : List Val) : List Val :=
  tgt.map (lookupV src r)

/-- CSV rendering of one scalar (pandas `to_csv`: missing renders empty). -/
def renderVal : Val → String
  | .vnull => ""
  | .vint n => toString n
  | .vstr s => s

/-- Model of `df_to_consistent_str(df, index=False)` (`string.py` lines
6-20): reorder the columns alphabetically, sort the rows by the full column
tuple with missing values last, and serialise to comma-separated text with a
header line (built without a trailing newline, matching the final
`.strip()`). -/
def df_to_consistent_str (f : SFrame) : String :=
  let sc := sortBy strLeB f.cols
  let reindexed := f.rows.map (reindexRow f.cols sc)
  let sortedRows := sortBy rowLe reindexed
  String.intercalate "\n"
    (String.intercalate "," sc :: sortedRows.map (fun r => String.intercalate "," (r.map renderVal)))

theorem lookupV_map (cs : List String) (h : String → Val) (c : String) (hc : c ∈ cs) :
    lookupV cs (cs.map h) c = h c := by
  induction cs with
  | nil => cases hc
  | cons c' cs ih =>
    by_cases hcc : c' = c
    · subst hcc; simp [lookupV]
    · have : c ∈ cs := by
        cases hc with
        | head => exact absurd rfl hcc
        | tail _ h => exact h
      simpa [lookupV, hcc] using ih this

theorem reindexRow_reindexRow (src mid tgt : List String) (r : List Val)
    (hsub : ∀ c ∈ tgt, c ∈ mid) :
    reindexRow mid tgt (reindexRow src mid r) = reindexRow src tgt r := by
  unfold reindexRow
  refine List.map_congr_left (fun c hc => ?_)
  exact lookupV_map mid (lookupV src r) c (hsub c hc)

theorem strLeB_trans (a b c : String) (h₁ : strLeB a b) (h₂ : strLeB b c) : strLeB a c :=
  charListLe_trans a.data b.data c.data h₁ h₂

theorem strLeB_total (a b : String) : strLeB a b || strLeB b a :=
  charListLe_total a.data b.data

theorem strLeB_antisymm (a b : String) (h₁ : strLeB a b) (h₂ : strLeB b a) : a = b := by
  cases a with
  | mk da =>
    cases b with
    | mk db =>
      rw [charListLe_antisymm da db h₁ h₂]

/-- C3 (claim): `df_to_consistent_str` is invariant under permuting the
columns and the rows of a table.  `g` is the result of permuting `f`'s
columns by an arbitrary permutation (its column list is a permutation of
`f`'s, every row re-expressed accordingly) and then permuting the row
order. -/
theorem df_to_consistent_str_perm_invariant (f g : SFrame)
    (hcols : g.cols.Perm f.cols)
    (hrows : g.rows.Perm (f.rows.map (reindexRow f.cols g.cols))) :
    df_to_consistent_str g = df_to_consistent_str f := by
  have hsc : sortBy strLeB g.cols = sortBy strLeB f.cols :=
    sortBy_eq_of_perm strLeB strLeB_trans strLeB_total strLeB_antisymm hcols
  have hscmem : ∀ c ∈ sortBy strLeB g.cols, c ∈ g.cols :=
    fun c hc => (sortBy_perm strLeB g.cols).mem_iff.mp hc
  have hmapeq :
      (f.rows.map (reindexRow f.cols g.cols)).map (reindexRow g.cols (sortBy strLeB g.cols))
        = f.rows.map (reindexRow f.cols (sortBy strLeB g.cols)) := by
    rw [List.map_map]
    refine List.map_congr_left (fun r _ => ?_)
    exact reindexRow_reindexRow f.cols g.cols (sortBy strLeB g.cols) r hscmem
  have hperm :
      (g.rows.map (reindexRow g.cols (sortBy strLeB f.cols))).Perm
        (f.rows.map (reindexRow f.cols (sortBy strLeB f.cols))) := by
    have := hrows.map (reindexRow g.cols (sortBy strLeB g.cols))
    rw [hmapeq, hsc] at this
    exact this
  have hsorted :
      sortBy rowLe (g.rows.map (reindexRow g.cols (sortBy strLeB f.cols)))
        = sortBy rowLe (f.rows.map (reindexRow f.cols (sortBy strLeB f.cols))) :=
    sortBy_eq_of_perm rowLe rowLe_trans rowLe_total rowLe_antisymm hperm
  simp only [df_to_consistent_str, hsc]
  rw [hsorted]

/-- Concrete instance of claim C3: a 2×2 table, its column-swapped and
row-swapped variant, and the invariance theorem applied to them. -/
theorem df_to_consistent_str_perm_invariant_witness :
    (SFrame.mk ["a", "b"] [[.vint 3, .vint 4], [.vint 1, .vint 2]]).cols.Perm
        (SFrame.mk ["b", "a"] [[.vint 2, .vint 1], [.vint 4, .vint 3]]).cols
      ∧ df_to_consistent_str (SFrame.mk ["a", "b"] [[.vint 3, .vint 4], [.vint 1, .vint 2]])
          = df_to_consistent_str (SFrame.mk ["b", "a"] [[.vint 2, .vint 1], [.vint 4, .vint 3]]) := by
  constructor
  · decide
  · exact df_to_consistent_str_perm_invariant
      (SFrame.mk ["b", "a"] [[.vint 2, .vint 1], [.vint 4, .vint 3]])
      (SFrame.mk ["a", "b"] [[.vint 3, .vint 4], [.vint 1, .vint 2]])
      (by decide) (by decide)

/-! ## `nest.py`: `nest` and `unnest`

Cells of a frame handled by nest/unnest are either scalars or nested tables
(a column of DataFrames).  The absence marker (`None`) is the scalar missing
value. -/

inductive Cell where
  | val (v : Val)
  | tab (tcols : List String) (trows : List (List Cell))

mutual

def cellBeq : Cell → Cell → Bool
  | .val a, .val b => a == b
  | .tab c r, .tab c' r' => c == c' && rowsBeq r r'
  | _, _ => false

def rowBeq : List Cell → List Cell → Bool
  | [], [] => true
  | x :: xs, y :: ys => cellBeq x y && rowBeq xs ys
  | _, _ => false

def rowsBeq : List (List Cell) → List (List Cell) → Bool
  | [], [] => true
  | x :: xs, y :: ys => rowBeq x y && rowsBeq xs ys
  | _, _ => false

end

mutual

theorem cellBeq_iff : (a b : Cell) → (cellBeq a b = true ↔ a = b)
  | .val x, .val y => by simp [cellBeq]
  | .val _, .tab _ _ => by simp [cellBeq]
  | .tab _ _, .val _ => by simp [cellBeq]
  | .tab c r, .tab c' r' => by
    simp [cellBeq, Bool.and_eq_true, rowsBeq_iff r r', Cell.tab.injEq]

theorem rowBeq_iff : (a b : List Cell) → (rowBeq a b = true ↔ a = b)
  | [], [] => by simp [rowBeq]
  | [], _ :: _ => by simp [rowBeq]
  | _ :: _, [] => by simp [rowBeq]
  | x :: xs, y :: ys => by
    simp [rowBeq, Bool.and_eq_true, cellBeq_iff x y, rowBeq_iff xs ys]

theorem rowsBeq_iff : (a b : List (List Cell)) → (rowsBeq a b = true ↔ a = b)
  | [], [] => by simp [rowsBeq]
  | [], _ :: _ => by simp [rowsBeq]
  | _ :: _, [] => by simp [rowsBeq]
  | x :: xs, y :: ys => by
    simp [rowsBeq, Bool.and_eq_true, rowBeq_iff x y, rowsBeq_iff xs ys]

end

instance : DecidableEq Cell := fun a b => decidable_of_iff _ (cellBeq_iff a b)

instance {ε α : Type} [DecidableEq ε] [DecidableEq α] : DecidableEq (Except ε α) :=
  fun x y =>
    match x, y with
    | .ok a, .ok b => if h : a = b then .isTrue (by rw [h]) else .isFalse (by simp [h])
    | .error a, .error b => if h : a = b then .isTrue (by rw [h]) else .isFalse (by simp [h])
    | .ok _, .error _ => .isFalse (by simp)
    | .error _, .ok _ => .isFalse (by simp)

/-- A table handled by nest/unnest. -/
structure Frame where
  cols : List String
  rows : List (List Cell)
deriving DecidableEq

/-- Python exception classes raised by `nest.py`. -/
inductive PyExc where
  | valueError
  | typeError
  | keyError
deriving DecidableEq, Repr

/-- Errors raised by nest/unnest, with the data the message carries. -/
inductive NestErr where
  /-- `ValueError` from nest line 44: some requested columns are absent. -/
  | missingColumns (cols : List String)
  /-- `ValueError` from nest line 48: the key column already exists. -/
  | keyExists (key : String)
  /-- `ValueError` raised by pandas `groupby([])`: "No group keys passed!". -/
  | noGroupKeys
  /-- `TypeError` raised by pandas `groupby` on an unhashable (DataFrame) key. -/
  | unhashable
  /-- `ValueError` from unnest line 100: key column not found. -/
  | keyNotFound (key : String)
  /-- `ValueError` from unnest line 104: a key cell is neither a DataFrame
  nor `None`; carries the offending column name. -/
  | notDataFrames (col : String)
  /-- `KeyError` raised by `df.drop` in unnest line 96 when the frame is
  empty and the key column is absent. -/
  | dropMissing (key : String)
deriving DecidableEq, Repr

/-- The Python exception class of each `nest.py` error. -/
def NestErr.pyClass : NestErr → PyExc
  | .missingColumns _ => .valueError
  | .keyExists _ => .valueError
  | .noGroupKeys => .valueError
  | .unhashable => .typeError
  | .keyNotFound _ => .valueError
  | .notDataFrames _ => .valueError
  | .dropMissing _ => .keyError

/-- Name-based cell access in a nest/unnest row (missing reads as `None`). -/
def lookupC : List String → List Cell → String → Cell
  | [], _, _ => .val .vnull
  | _ :: _, [], _ => .val .vnull
  | c' :: cs, v :: vs, c => if c' = c then v else lookupC cs vs c

def Cell.isTab : Cell → Bool
  | .tab _ _ => true
  | _ => false

def Cell.isNull : Cell → Bool
  | .val .vnull => true
  | _ => false

/-- Scalar content of a cell (only applied to non-table cells). -/
def toScalar : Cell → Val
  | .val v => v
  | .tab _ _ => .vnull

/-- Grouping columns: all frame columns not selected for nesting, in
original order (`nest.py` line 55). -/
def nestGroupCols (f : Frame) (columns : List String) : List String :=
  f.cols.filter (fun c => !(columns.contains c))

/-- The grouping key of one row: the tuple of its grouping-column values. -/
def nestKeyOf (f : Frame) (columns : List String) (r : List Cell) : List Val :=
  (nestGroupCols f columns).map (fun c => toScalar (lookupC f.cols r c))

/-- The distinct grouping keys in the order pandas `groupby(sort=True)`
emits the groups: ascending by key tuple, missing values last. -/
def nestSortedKeys (f : Frame) (columns : List String) : List (List Val) :=
  sortBy rowLe (f.rows.map (nestKeyOf f columns)).dedup

/-- The inner table of one group: the rows whose key equals `k`, in original
relative order, restricted to the nested columns (`x[columns]`, line 57). -/
def nestInner (f : Frame) (columns : List String) (k : List Val) : List (List Cell) :=
  (f.rows.filter (fun r => decide (nestKeyOf f columns r = k))).map
    (fun r => columns.map (lookupC f.cols r))

/-- Model of `nest` (`nest.py` lines 7-60).  Guards in source order: missing
nest columns, key-name collision, empty input, then pandas `groupby`
(which raises on an empty grouping-column list and on unhashable
DataFrame-valued keys; with `dropna=False` missing key values group
together; with the default `sort=True` groups are emitted in ascending key
order).  Each output row is one group: its key values followed by the
nested inner table under `key`. -/
def nest (f : Frame) (columns : List String) (key : String) : Except NestErr Frame :=
  if columns.filter (fun c => !(f.cols.contains c)) ≠ [] then
    .error (.missingColumns (columns.filter (fun c => !(f.cols.contains c))))
  else if f.cols.contains key && !(columns.contains key) then
    .error (.keyExists key)
  else if f.rows = [] then
    .ok ⟨nestGroupCols f columns ++ [key], []⟩
  else if nestGroupCols f columns = [] then
    .error .noGroupKeys
  else if f.rows.any (fun r => (nestGroupCols f columns).any
      (fun c => (lookupC f.cols r c).isTab)) then
    .error .unhashable
  else
    .ok ⟨nestGroupCols f columns ++ [key],
      (nestSortedKeys f columns).map
        (fun k => k.map Cell.val ++ [Cell.tab columns (nestInner f columns k)])⟩

/-- Outer columns surviving unnest: everything but the key column. -/
def unnestOuterCols (f : Frame) (key : String) : List String :=
  f.cols.filter (fun c => !(c == key))

/-- The non-absent nested tables, each paired with its outer row.  Models
`pd.concat(df_reset[key].to_dict())` + `join(how="right")`: the concat index
tags every inner row with its outer row position and the right-join brings
the outer values back by that position, so outer rows with an absent
(`None`) nested value contribute nothing and each remaining inner row is
paired with exactly its own outer row. -/
def unnestTabs (f : Frame) (key : String) :
    List (List Cell × List String × List (List Cell)) :=
  f.rows.filterMap (fun r =>
    match lookupC f.cols r key with
    | .tab tc tr => some (r, tc, tr)
    | _ => none)

/-- Union of column lists in order of first appearance (pandas `concat` on
frames with differing columns). -/
def colUnion (acc cs : List String) : List String :=
  cs.foldl (fun a c => if a.contains c then a else a ++ [c]) acc

/-- Columns of the concatenated inner tables. -/
def unnestFlatCols (f : Frame) (key : String) : List String :=
  (unnestTabs f key).foldl (fun a t => colUnion a t.2.1) []

/-- Model of `unnest` (`nest.py` lines 63-119).  Guards in source order:
empty frame (drop the key column; `df.drop` itself raises `KeyError` if the
column is absent), missing key column, non-DataFrame non-`None` cells.
Result rows: for each outer row in order, its nested table's rows in order,
outer values (minus `key`) prepended to inner values; inner columns that
collide with surviving outer columns get the `_nested` suffix (the join's
`rsuffix`); inner cells under a column a particular inner table lacks read
as missing (`concat`'s NaN fill).  The original row index is dropped
(results are compared up to row index). -/
def unnest (f : Frame) (key : String) : Except NestErr Frame :=
  if f.rows = [] then
    if f.cols.contains key then .ok ⟨unnestOuterCols f key, []⟩
    else .error (.dropMissing key)
  else if !(f.cols.contains key) then
    .error (.keyNotFound key)
  else if !(f.rows.all fun r =>
      (lookupC f.cols r key).isTab || (lookupC f.cols r key).isNull) then
    .error (.notDataFrames key)
  else
    .ok ⟨unnestOuterCols f key ++ (unnestFlatCols f key).map
        (fun c => if (unnestOuterCols f key).contains c then c ++ "_nested" else c),
      (unnestTabs f key).flatMap (fun t => t.2.2.map (fun ir =>
        (unnestOuterCols f key).map (lookupC f.cols t.1)
          ++ (unnestFlatCols f key).map (lookupC t.2.1 ir)))⟩

/-! ### Helper lemmas for nest/unnest -/

theorem lookupC_map (cs : List String) (h : String → Cell) (c : String) (hc : c ∈ cs) :
    lookupC cs (cs.map h) c = h c := by
  induction cs with
  | nil => cases hc
  | cons c' cs ih =>
    by_cases hcc : c' = c
    · subst hcc; simp [lookupC]
    · have : c ∈ cs := by
        cases hc with
        | head => exact absurd rfl hcc
        | tail _ h => exact h
      simpa [lookupC, hcc] using ih this

theorem lookupC_append_left (g g' : List String) (a a' : List Cell) (c : String)
    (hlen : g.length = a.length) (hc : c ∈ g) :
    lookupC (g ++ g') (a ++ a') c = lookupC g a c := by
  induction g generalizing a with
  | nil => cases hc
  | cons x gs ih =>
    cases a with
    | nil => simp at hlen
    | cons y as =>
      by_cases hxc : x = c
      · simp [lookupC, hxc]
      · have : c ∈ gs := by
          cases hc with
          | head => exact absurd rfl hxc
          | tail _ h => exact h
        simpa [lookupC, hxc] using ih as (by simpa using hlen) this

theorem lookupC_append_right (g g' : List String) (a a' : List Cell) (c : String)
    (hlen : g.length = a.length) (hc : c ∉ g) :
    lookupC (g ++ g') (a ++ a') c = lookupC g' a' c := by
  induction g generalizing a with
  | nil =>
    cases a with
    | nil => rfl
    | cons y as => simp at hlen
  | cons x gs ih =>
    cases a with
    | nil => simp at hlen
    | cons y as =>
      have hxc : x ≠ c := fun h => hc (h ▸ List.mem_cons_self x gs)
      have : c ∉ gs := fun h => hc (List.mem_cons_of_mem x h)
      simpa [lookupC, hxc] using ih as (by simpa using hlen) this

theorem cell_val_toScalar {x : Cell} (h : x.isTab = false) : Cell.val (toScalar x) = x := by
  cases x with
  | val v => rfl
  | tab tc tr => simp [Cell.isTab] at h

theorem filterMap_eq_map_of_some {α β : Type} {f : α → Option β} {g : α → β} :
    ∀ {l : List α}, (∀ a ∈ l, f a = some (g a)) → l.filterMap f = l.map g
  | [], _ => rfl
  | a :: l, h => by
    rw [List.filterMap_cons, h a (List.mem_cons_self a l),
      filterMap_eq_map_of_some (fun x hx => h x (List.mem_cons_of_mem a hx)), List.map_cons]

theorem flatMap_congr_mem {α β : Type} {l : List α} {f g : α → List β}
    (h : ∀ a ∈ l, f a = g a) : l.flatMap f = l.flatMap g := by
  induction l with
  | nil => rfl
  | cons a l ih =>
    rw [List.flatMap_cons, List.flatMap_cons, h a (List.mem_cons_self a l),
      ih (fun x hx => h x (List.mem_cons_of_mem a hx))]

/-- Splitting a list into the groups of a complete, duplicate-free list of
group keys recovers the list up to permutation. -/
theorem flatMap_filter_perm {α κ : Type} [DecidableEq κ] (π : α → κ) :
    ∀ (K : List κ) (rows : List α), K.Nodup → (∀ r ∈ rows, π r ∈ K) →
      (K.flatMap fun k => rows.filter (fun r => decide (π r = k))).Perm rows := by
  intro K
  induction K with
  | nil =>
    intro rows _ h
    cases rows with
    | nil => simp
    | cons r rs => exact absurd (h r (List.mem_cons_self r rs)) (by simp)
  | cons k K ih =>
    intro rows hnd hmem
    rw [List.flatMap_cons]
    have hknotin : k ∉ K := (List.nodup_cons.mp hnd).1
    have hrest :
        (K.flatMap fun q => rows.filter (fun r => decide (π r = q)))
          = K.flatMap fun q =>
              (rows.filter (fun r => !(decide (π r = k)))).filter
                (fun r => decide (π r = q)) := by
      refine flatMap_congr_mem (fun q hq => ?_)
      rw [List.filter_filter]
      refine (List.filter_congr (fun r _ => ?_)).symm
      by_cases hrq : π r = q
      · have hqk : ¬ q = k := fun h => hknotin (h ▸ hq)
        simp [hrq, hqk]
      · simp [hrq]
    have htail :
        (K.flatMap fun q =>
            (rows.filter (fun r => !(decide (π r = k)))).filter
              (fun r => decide (π r = q))).Perm
          (rows.filter (fun r => !(decide (π r = k)))) := by
      refine ih _ ((List.nodup_cons.mp hnd).2) (fun r hr => ?_)
      have hr' := List.mem_filter.mp hr
      have := hmem r hr'.1
      cases List.mem_cons.mp this with
      | inl h => exact absurd (by simpa using h) (by simpa using hr'.2)
      | inr h => exact h
    have hstep :
        (rows.filter (fun r => decide (π r = k))
            ++ K.flatMap fun q => rows.filter (fun r => decide (π r = q))).Perm
          (rows.filter (fun r => decide (π r = k))
            ++ rows.filter (fun r => !(decide (π r = k)))) := by
      rw [hrest]
      exact List.Perm.append_left _ htail
    exact hstep.trans (List.filter_append_perm _ rows)

theorem colUnion_of_disjoint : ∀ (cs acc : List String), cs.Nodup →
    (∀ c ∈ cs, c ∉ acc) → colUnion acc cs = acc ++ cs
  | [], acc, _, _ => by simp [colUnion]
  | c :: cs, acc, hnd, hdis => by
    have hcn : c ∉ acc := hdis c (List.mem_cons_self c cs)
    have step : colUnion acc (c :: cs) = colUnion (acc ++ [c]) cs := by
      simp [colUnion, hcn]
    rw [step, colUnion_of_disjoint cs (acc ++ [c]) (List.nodup_cons.mp hnd).2
      (fun x hx => by
        simp only [List.mem_append, List.mem_singleton]
        rintro (h | h)
        · exact hdis x (List.mem_cons_of_mem c hx) h
        · exact (List.nodup_cons.mp hnd).1 (h ▸ hx))]
    simp

theorem colUnion_of_subset : ∀ (cs acc : List String),
    (∀ c ∈ cs, c ∈ acc) → colUnion acc cs = acc
  | [], acc, _ => by simp [colUnion]
  | c :: cs, acc, hsub => by
    have hin : c ∈ acc := hsub c (List.mem_cons_self c cs)
    have step : colUnion acc (c :: cs) = colUnion acc cs := by
      simp [colUnion, hin]
    rw [step, colUnion_of_subset cs acc (fun x hx => hsub x (List.mem_cons_of_mem c hx))]

theorem colUnion_nil_of_nodup (cs : List String) (hnd : cs.Nodup) : colUnion [] cs = cs := by
  simpa using colUnion_of_disjoint cs [] hnd (by simp)

theorem foldl_colUnion_const {β : Type} (pick : β → List String) (columns : List String) :
    ∀ (L : List β), (∀ t ∈ L, pick t = columns) →
      L.foldl (fun a t => colUnion a (pick t)) columns = columns
  | [], _ => rfl
  | t :: L, h => by
    have : colUnion columns (pick t) = columns := by
      rw [h t (List.mem_cons_self t L)]
      exact colUnion_of_subset columns columns (fun _ hc => hc)
    simp only [List.foldl_cons, this]
    exact foldl_colUnion_const pick columns L (fun x hx => h x (List.mem_cons_of_mem t hx))

/-- Evaluation of `nest` when all its guards pass. -/
theorem nest_eval (f : Frame) (columns : List String) (key : String)
    (h1 : ∀ c ∈ columns, c ∈ f.cols)
    (h2 : key ∉ f.cols)
    (h3 : f.rows ≠ [])
    (h4 : nestGroupCols f columns ≠ [])
    (h5 : ∀ r ∈ f.rows, ∀ c ∈ nestGroupCols f columns, (lookupC f.cols r c).isTab = false) :
    nest f columns key = .ok ⟨nestGroupCols f columns ++ [key],
      (nestSortedKeys f columns).map
        (fun k => k.map Cell.val ++ [Cell.tab columns (nestInner f columns k)])⟩ := by
  have g1 : columns.filter (fun c => !(f.cols.contains c)) = [] :=
    List.filter_eq_nil_iff.mpr (fun c hc => by simp [h1 c hc])
  have g5 : (f.rows.any fun r => (nestGroupCols f columns).any
      fun c => (lookupC f.cols r c).isTab) = false := by
    rw [List.any_eq_false]
    intro r hr
    simp only [Bool.not_eq_true, List.any_eq_false]
    intro c hc
    simp [h5 r hr c hc]
  unfold nest
  rw [if_neg (by simpa using h1), if_neg (by simp [h2]), if_neg h3, if_neg h4,
    if_neg (by simp [g5])]

theorem nestSortedKeys_perm_dedup (f : Frame) (columns : List String) :
    (nestSortedKeys f columns).Perm (f.rows.map (nestKeyOf f columns)).dedup :=
  sortBy_perm rowLe _

theorem nestSortedKeys_nodup (f : Frame) (columns : List String) :
    (nestSortedKeys f columns).Nodup :=
  (nestSortedKeys_perm_dedup f columns).symm.nodup (List.nodup_dedup _)

theorem keyOf_mem_nestSortedKeys (f : Frame) (columns : List String)
    {r : List Cell} (hr : r ∈ f.rows) :
    nestKeyOf f columns r ∈ nestSortedKeys f columns :=
  (nestSortedKeys_perm_dedup f columns).mem_iff.mpr
    (List.mem_dedup.mpr (List.mem_map_of_mem _ hr))

theorem mem_nestSortedKeys_exists (f : Frame) (columns : List String)
    {k : List Val} (hk : k ∈ nestSortedKeys f columns) :
    ∃ r ∈ f.rows, nestKeyOf f columns r = k := by
  have := List.mem_dedup.mp ((nestSortedKeys_perm_dedup f columns).mem_iff.mp hk)
  rcases List.mem_map.mp this with ⟨r, hr, hrk⟩
  exact ⟨r, hr, hrk⟩

theorem nestSortedKeys_ne_nil (f : Frame) (columns : List String) (h3 : f.rows ≠ []) :
    nestSortedKeys f columns ≠ [] := by
  rcases List.exists_cons_of_ne_nil h3 with ⟨r, rs, hr⟩
  intro hnil
  have : nestKeyOf f columns r ∈ nestSortedKeys f columns :=
    keyOf_mem_nestSortedKeys f columns (by rw [hr]; exact List.mem_cons_self r rs)
  rw [hnil] at this
  cases this

theorem nestKeyOf_length (f : Frame) (columns : List String) (r : List Cell) :
    (nestKeyOf f columns r).length = (nestGroupCols f columns).length := by
  simp [nestKeyOf]

theorem nestGroupCols_subset (f : Frame) (columns : List String) :
    ∀ c ∈ nestGroupCols f columns, c ∈ f.cols :=
  fun c hc => (List.mem_filter.mp hc).1

theorem mem_nestGroupCols_not_mem_columns (f : Frame) (columns : List String) :
    ∀ c ∈ nestGroupCols f columns, c ∉ columns := by
  intro c hc
  have := (List.mem_filter.mp hc).2
  simp only [Bool.not_eq_true', List.contains_eq_any_beq, List.any_eq_false] at this
  intro hmem
  exact absurd (by simp : (c == c) = true) (by simpa using this c hmem)

/-- Full evaluation of `unnest (nest t columns key) key` when nest's guards
pass and `columns` is duplicate-free: the result has the grouping columns
followed by the nested columns, and one row per original row, emitted group
by group in sorted key order. -/
theorem unnest_nest_eval (t : Frame) (columns : List String) (key : String)
    (h1 : ∀ c ∈ columns, c ∈ t.cols)
    (h2 : key ∉ t.cols)
    (h3 : t.rows ≠ [])
    (h4 : nestGroupCols t columns ≠ [])
    (h5 : ∀ r ∈ t.rows, ∀ c ∈ nestGroupCols t columns, (lookupC t.cols r c).isTab = false)
    (h6 : columns.Nodup) :
    (nest t columns key).bind (fun n => unnest n key)
      = .ok ⟨nestGroupCols t columns ++ columns,
          (nestSortedKeys t columns).flatMap (fun k =>
            (t.rows.filter (fun r => decide (nestKeyOf t columns r = k))).map
              (fun r => (nestGroupCols t columns ++ columns).map (lookupC t.cols r)))⟩ := by
  have hkeyg : key ∉ nestGroupCols t columns :=
    fun hk => h2 (nestGroupCols_subset t columns key hk)
  have hlen : ∀ k ∈ nestSortedKeys t columns, k.length = (nestGroupCols t columns).length := by
    intro k hk
    rcases mem_nestSortedKeys_exists t columns hk with ⟨r, _, hrk⟩
    rw [← hrk]
    exact nestKeyOf_length t columns r
  have hlook : ∀ k ∈ nestSortedKeys t columns,
      lookupC (nestGroupCols t columns ++ [key])
        (k.map Cell.val ++ [Cell.tab columns (nestInner t columns k)]) key
        = Cell.tab columns (nestInner t columns k) := by
    intro k hk
    rw [lookupC_append_right _ _ _ _ _ (by simp [hlen k hk]) hkeyg]
    simp [lookupC]
  rw [nest_eval t columns key h1 h2 h3 h4 h5]
  show unnest ⟨nestGroupCols t columns ++ [key], _⟩ key = _
  have hSKne := nestSortedKeys_ne_nil t columns h3
  have hrowsne : (nestSortedKeys t columns).map
      (fun k => k.map Cell.val ++ [Cell.tab columns (nestInner t columns k)]) ≠ [] := by
    simpa using hSKne
  have hcont : (nestGroupCols t columns ++ [key]).contains key = true := by simp
  have hall : ((nestSortedKeys t columns).map
      (fun k => k.map Cell.val ++ [Cell.tab columns (nestInner t columns k)])).all
        (fun r => (lookupC (nestGroupCols t columns ++ [key]) r key).isTab
          || (lookupC (nestGroupCols t columns ++ [key]) r key).isNull) = true := by
    rw [List.all_eq_true]
    intro row hrow
    rcases List.mem_map.mp hrow with ⟨k, hk, hrk⟩
    rw [← hrk, hlook k hk]
    simp [Cell.isTab]
  have houter : unnestOuterCols
      ⟨nestGroupCols t columns ++ [key],
        (nestSortedKeys t columns).map
          (fun k => k.map Cell.val ++ [Cell.tab columns (nestInner t columns k)])⟩ key
      = nestGroupCols t columns := by
    show (nestGroupCols t columns ++ [key]).filter (fun c => !(c == key))
        = nestGroupCols t columns
    rw [List.filter_append]
    have hg : (nestGroupCols t columns).filter (fun c => !(c == key))
        = nestGroupCols t columns :=
      List.filter_eq_self.mpr (fun c hc => by
        simp only [Bool.not_eq_eq_eq_not, Bool.not_true, beq_eq_false_iff_ne, ne_eq]
        exact fun h => hkeyg (h ▸ hc))
    simp [hg]
  have htabs : unnestTabs
      ⟨nestGroupCols t columns ++ [key],
        (nestSortedKeys t columns).map
          (fun k => k.map Cell.val ++ [Cell.tab columns (nestInner t columns k)])⟩ key
      = (nestSortedKeys t columns).map
          (fun k => (k.map Cell.val ++ [Cell.tab columns (nestInner t columns k)],
            columns, nestInner t columns k)) := by
    show ((nestSortedKeys t columns).map
        (fun k => k.map Cell.val ++ [Cell.tab columns (nestInner t columns k)])).filterMap _
      = _
    rw [List.filterMap_map]
    refine filterMap_eq_map_of_some (fun k hk => ?_)
    show (match lookupC (nestGroupCols t columns ++ [key])
        (k.map Cell.val ++ [Cell.tab columns (nestInner t columns k)]) key with
      | Cell.tab tc tr =>
          some (k.map Cell.val ++ [Cell.tab columns (nestInner t columns k)], tc, tr)
      | _ => none) = _
    rw [hlook k hk]
  have hflat : unnestFlatCols
      ⟨nestGroupCols t columns ++ [key],
        (nestSortedKeys t columns).map
          (fun k => k.map Cell.val ++ [Cell.tab columns (nestInner t columns k)])⟩ key
      = columns := by
    show (unnestTabs _ _).foldl (fun a tt => colUnion a tt.2.1) [] = columns
    rw [htabs]
    rcases List.exists_cons_of_ne_nil hSKne with ⟨k0, ks, hsk⟩
    rw [hsk, List.map_cons, List.foldl_cons]
    have hstart : colUnion []
        ((fun k => ((k : List Val).map Cell.val
            ++ [Cell.tab columns (nestInner t columns k)],
          columns, nestInner t columns k)) k0).2.1 = columns :=
      colUnion_nil_of_nodup columns h6
    rw [hstart]
    refine foldl_colUnion_const
      (fun tt : List Cell × List String × List (List Cell) => tt.2.1) columns _
      (fun tt htt => ?_)
    rcases List.mem_map.mp htt with ⟨k, _, hkk⟩
    rw [← hkk]
  have hinner : ∀ k ∈ nestSortedKeys t columns,
      (nestInner t columns k).map (fun ir =>
        (nestGroupCols t columns).map (lookupC (nestGroupCols t columns ++ [key])
          (k.map Cell.val ++ [Cell.tab columns (nestInner t columns k)]))
        ++ columns.map (lookupC columns ir))
      = (t.rows.filter (fun r => decide (nestKeyOf t columns r = k))).map
          (fun r => (nestGroupCols t columns ++ columns).map (lookupC t.cols r)) := by
    intro k hk
    rcases mem_nestSortedKeys_exists t columns hk with ⟨r₀, hr₀, hk₀⟩
    have hXk : (nestGroupCols t columns).map (lookupC (nestGroupCols t columns ++ [key])
        (k.map Cell.val ++ [Cell.tab columns (nestInner t columns k)]))
        = k.map Cell.val := by
      have hkform : k.map Cell.val = (nestGroupCols t columns).map
          (fun c => Cell.val (toScalar (lookupC t.cols r₀ c))) := by
        rw [← hk₀]
        show (((nestGroupCols t columns)).map _).map Cell.val = _
        rw [List.map_map]
        rfl
      have hl : (nestGroupCols t columns).length = (k.map Cell.val).length := by
        simp [hlen k hk]
      rw [hkform]
      refine List.map_congr_left (fun c hc => ?_)
      rw [← hkform, lookupC_append_left _ [key] _ [Cell.tab columns (nestInner t columns k)]
        c hl hc, hkform]
      exact lookupC_map _ _ c hc
    rw [hXk]
    show ((t.rows.filter (fun r => decide (nestKeyOf t columns r = k))).map
        (fun r => columns.map (lookupC t.cols r))).map _ = _
    rw [List.map_map]
    refine List.map_congr_left (fun r hr => ?_)
    have hrt : r ∈ t.rows := (List.mem_filter.mp hr).1
    have hrk : nestKeyOf t columns r = k := by
      have := (List.mem_filter.mp hr).2
      simpa using this
    show k.map Cell.val
        ++ columns.map (lookupC columns (columns.map (lookupC t.cols r)))
      = (nestGroupCols t columns ++ columns).map (lookupC t.cols r)
    have hinpart : columns.map (lookupC columns (columns.map (lookupC t.cols r)))
        = columns.map (lookupC t.cols r) :=
      List.map_congr_left (fun c hc => lookupC_map _ _ c hc)
    have houtpart : k.map Cell.val = (nestGroupCols t columns).map (lookupC t.cols r) := by
      rw [← hrk]
      show ((nestGroupCols t columns).map _).map Cell.val = _
      rw [List.map_map]
      refine List.map_congr_left (fun c hc => ?_)
      exact cell_val_toScalar (h5 r hrt c hc)
    rw [hinpart, houtpart, ← List.map_append]
  have hren : columns.map (fun c =>
      if (nestGroupCols t columns).contains c then c ++ "_nested" else c) = columns := by
    have : columns.map (fun c =>
        if (nestGroupCols t columns).contains c then c ++ "_nested" else c)
        = columns.map id := by
      refine List.map_congr_left (fun c hc => ?_)
      have hcg : c ∉ nestGroupCols t columns :=
        fun hcg => mem_nestGroupCols_not_mem_columns t columns c hcg hc
      simp [hcg]
    rw [this, List.map_id]
  unfold unnest
  rw [if_neg hrowsne]
  rw [if_neg (by simp only [hcont, Bool.not_true]; exact Bool.false_ne_true)]
  rw [if_neg (by simp only [hall, Bool.not_true]; exact Bool.false_ne_true)]
  rw [houter, hflat, htabs, List.flatMap_map, hren]
  exact congrArg (fun rows => Except.ok (Frame.mk (nestGroupCols t columns ++ columns) rows))
    (flatMap_congr_mem hinner)

/-! ### Claim C1: round trip -/

/-- A table whose grouping keys do not appear in ascending order. -/
def roundTripEx : Frame :=
  ⟨["id", "sub"], [[.val (.vint 2), .val (.vstr "a")], [.val (.vint 1), .val (.vstr "b")]]⟩

/-- C1 (counterexample): for the two-row table with ids `2, 1`,
`unnest(nest(t, ["sub"], "data"), "data")` does not reproduce `t`: pandas
`groupby` defaults to `sort=True`, so the groups - and hence the unnested
rows - come back in ascending key order `1, 2`, not in `t`'s row order. -/
theorem roundtrip_changes_row_order :
    ((nest roundTripEx ["sub"] "data").bind (fun n => unnest n "data")
      = .ok ⟨["id", "sub"],
          [[.val (.vint 1), .val (.vstr "b")], [.val (.vint 2), .val (.vstr "a")]]⟩)
    ∧ Frame.mk ["id", "sub"]
          [[.val (.vint 1), .val (.vstr "b")], [.val (.vint 2), .val (.vstr "a")]]
        ≠ roundTripEx :=
  ⟨by decide, by decide⟩

/-- C1 (amended): for every table `t` with no pre-existing `key` column and
every duplicate-free grouping-safe `cols` (all present in `t`, leaving at
least one scalar grouping column on a non-empty table),
`unnest(nest(t, cols, key), key)` reproduces `t`'s rows up to order: its
columns are `t`'s grouping columns followed by `cols`, and its rows are a
permutation of `t`'s rows re-expressed along that column order (rows come
back grouped, with the groups in ascending key order rather than in `t`'s
row order). -/
theorem unnest_nest_roundtrip_perm (t : Frame) (columns : List String) (key : String)
    (h1 : ∀ c ∈ columns, c ∈ t.cols)
    (h2 : key ∉ t.cols)
    (h3 : t.rows ≠ [])
    (h4 : nestGroupCols t columns ≠ [])
    (h5 : ∀ r ∈ t.rows, ∀ c ∈ nestGroupCols t columns, (lookupC t.cols r c).isTab = false)
    (h6 : columns.Nodup) :
    ∃ u : Frame, (nest t columns key).bind (fun n => unnest n key) = .ok u
      ∧ u.cols = nestGroupCols t columns ++ columns
      ∧ u.rows.Perm (t.rows.map
          (fun r => (nestGroupCols t columns ++ columns).map (lookupC t.cols r))) := by
  refine ⟨_, unnest_nest_eval t columns key h1 h2 h3 h4 h5 h6, rfl, ?_⟩
  show ((nestSortedKeys t columns).flatMap fun k =>
      (t.rows.filter (fun r => decide (nestKeyOf t columns r = k))).map
        (fun r => (nestGroupCols t columns ++ columns).map (lookupC t.cols r))).Perm _
  rw [← List.map_flatMap]
  exact (flatMap_filter_perm (nestKeyOf t columns) (nestSortedKeys t columns) t.rows
    (nestSortedKeys_nodup t columns)
    (fun r hr => keyOf_mem_nestSortedKeys t columns hr)).map _

/-- Concrete instance of the amended C1 round-trip law. -/
theorem unnest_nest_roundtrip_perm_witness :
    ∃ u : Frame, (nest roundTripEx ["sub"] "data").bind (fun n => unnest n "data") = .ok u
      ∧ u.cols = nestGroupCols roundTripEx ["sub"] ++ ["sub"]
      ∧ u.rows.Perm (roundTripEx.rows.map
          (fun r => (nestGroupCols roundTripEx ["sub"] ++ ["sub"]).map
            (lookupC roundTripEx.cols r))) :=
  unnest_nest_roundtrip_perm roundTripEx ["sub"] "data"
    (by decide) (by decide) (by decide) (by decide) (by decide) (by decide)

/-! ### Claim C2: group order -/

/-- A table whose first group key (2) is larger than the second (1). -/
def groupOrderEx : Frame :=
  ⟨["id", "s"], [[.val (.vint 2), .val (.vstr "x")], [.val (.vint 1), .val (.vstr "y")]]⟩

/-- C2 (counterexample): nesting the table with ids `2, 1` emits the groups
in ascending key order `1, 2`, not in first-appearance (discovery) order
`2, 1` - pandas `groupby` defaults to `sort=True`. -/
theorem nest_not_first_appearance_order :
    (nest groupOrderEx ["s"] "data"
      = .ok ⟨["id", "data"],
          [[.val (.vint 1), .tab ["s"] [[.val (.vstr "y")]]],
           [.val (.vint 2), .tab ["s"] [[.val (.vstr "x")]]]]⟩)
    ∧ nest groupOrderEx ["s"] "data"
        ≠ .ok ⟨["id", "data"],
            [[.val (.vint 2), .tab ["s"] [[.val (.vstr "x")]]],
             [.val (.vint 1), .tab ["s"] [[.val (.vstr "y")]]]]⟩ :=
  ⟨by decide, by decide⟩

/-- C2 (amended): for every non-empty table passing nest's guards, nest
emits one output row per distinct grouping-key combination, in ascending
sorted key order (missing values last) - the pandas `groupby(sort=True)`
default - not in order of first appearance. -/
theorem nest_groups_sorted_order (t : Frame) (columns : List String) (key : String)
    (h1 : ∀ c ∈ columns, c ∈ t.cols)
    (h2 : key ∉ t.cols)
    (h3 : t.rows ≠ [])
    (h4 : nestGroupCols t columns ≠ [])
    (h5 : ∀ r ∈ t.rows, ∀ c ∈ nestGroupCols t columns, (lookupC t.cols r c).isTab = false) :
    ∃ n : Frame, nest t columns key = .ok n
      ∧ (n.rows.map (fun r => (r.take (nestGroupCols t columns).length).map toScalar)).Perm
          (t.rows.map (nestKeyOf t columns)).dedup
      ∧ List.Sorted (fun a b => rowLe a b = true)
          (n.rows.map (fun r => (r.take (nestGroupCols t columns).length).map toScalar)) := by
  refine ⟨_, nest_eval t columns key h1 h2 h3 h4 h5, ?_, ?_⟩
  all_goals {
    have hkeys : (((nestSortedKeys t columns).map
          (fun k => k.map Cell.val ++ [Cell.tab columns (nestInner t columns k)])).map
        (fun r => (r.take (nestGroupCols t columns).length).map toScalar))
        = nestSortedKeys t columns := by
      rw [List.map_map]
      have : ∀ k ∈ nestSortedKeys t columns,
          (((k.map Cell.val ++ [Cell.tab columns (nestInner t columns k)]).take
            (nestGroupCols t columns).length).map toScalar) = k := by
        intro k hk
        rcases mem_nestSortedKeys_exists t columns hk with ⟨r, _, hrk⟩
        have hlenk : (nestGroupCols t columns).length = (k.map Cell.val).length := by
          rw [← hrk]
          simp [nestKeyOf]
        rw [hlenk, List.take_left, List.map_map]
        have : k.map (toScalar ∘ Cell.val) = k.map id :=
          List.map_congr_left (fun v _ => rfl)
        rw [this, List.map_id]
      exact (List.map_congr_left this).trans (List.map_id' _)
    rw [hkeys]
    first
      | exact nestSortedKeys_perm_dedup t columns
      | · haveI : IsTotal (List Val) (fun a b => rowLe a b = true) :=
            ⟨fun a b => by simpa using Bool.or_eq_true_iff.mp (rowLe_total a b)⟩
          haveI : IsTrans (List Val) (fun a b => rowLe a b = true) := ⟨rowLe_trans⟩
          exact List.sorted_insertionSort _ _
  }

/-- Concrete instance of the amended C2 sorted-group-order law. -/
theorem nest_groups_sorted_order_witness :
    ∃ n : Frame, nest groupOrderEx ["s"] "data" = .ok n
      ∧ (n.rows.map (fun r =>
          (r.take (nestGroupCols groupOrderEx ["s"]).length).map toScalar)).Perm
          (groupOrderEx.rows.map (nestKeyOf groupOrderEx ["s"])).dedup
      ∧ List.Sorted (fun a b => rowLe a b = true)
          (n.rows.map (fun r =>
            (r.take (nestGroupCols groupOrderEx ["s"]).length).map toScalar)) :=
  nest_groups_sorted_order groupOrderEx ["s"] "data"
    (by decide) (by decide) (by decide) (by decide) (by decide)

/-! ### Claim C7: null grouping keys -/

/-- C7: for every table containing rows whose grouping-key tuple has
missing values, nest (which groups with `dropna=False`) treats two missing
values in the same key position as equal: it succeeds, emits one output row
per distinct key tuple (so each distinct null pattern forms its own group),
drops no row's key, and merges no two distinct key tuples. -/
theorem nest_null_keys_own_group (t : Frame) (columns : List String) (key : String)
    (h1 : ∀ c ∈ columns, c ∈ t.cols)
    (h2 : key ∉ t.cols)
    (h3 : t.rows ≠ [])
    (h4 : nestGroupCols t columns ≠ [])
    (h5 : ∀ r ∈ t.rows, ∀ c ∈ nestGroupCols t columns, (lookupC t.cols r c).isTab = false)
    (hnull : ∃ r ∈ t.rows, Val.vnull ∈ nestKeyOf t columns r) :
    ∃ n : Frame, nest t columns key = .ok n
      ∧ (n.rows.map (fun r => (r.take (nestGroupCols t columns).length).map toScalar)).Perm
          (t.rows.map (nestKeyOf t columns)).dedup
      ∧ (∀ r ∈ t.rows, nestKeyOf t columns r
          ∈ n.rows.map (fun r => (r.take (nestGroupCols t columns).length).map toScalar))
      ∧ (n.rows.map
          (fun r => (r.take (nestGroupCols t columns).length).map toScalar)).Nodup := by
  clear hnull
  refine ⟨_, nest_eval t columns key h1 h2 h3 h4 h5, ?_⟩
  have hkeys : (((nestSortedKeys t columns).map
        (fun k => k.map Cell.val ++ [Cell.tab columns (nestInner t columns k)])).map
      (fun r => (r.take (nestGroupCols t columns).length).map toScalar))
      = nestSortedKeys t columns := by
    rw [List.map_map]
    have : ∀ k ∈ nestSortedKeys t columns,
        (((k.map Cell.val ++ [Cell.tab columns (nestInner t columns k)]).take
          (nestGroupCols t columns).length).map toScalar) = k := by
      intro k hk
      rcases mem_nestSortedKeys_exists t columns hk with ⟨r, _, hrk⟩
      have hlenk : (nestGroupCols t columns).length = (k.map Cell.val).length := by
        rw [← hrk]
        simp [nestKeyOf]
      rw [hlenk, List.take_left, List.map_map]
      have : k.map (toScalar ∘ Cell.val) = k.map id :=
        List.map_congr_left (fun v _ => rfl)
      rw [this, List.map_id]
    exact (List.map_congr_left this).trans (List.map_id' _)
  rw [hkeys]
  exact ⟨nestSortedKeys_perm_dedup t columns,
    fun r hr => keyOf_mem_nestSortedKeys t columns hr,
    nestSortedKeys_nodup t columns⟩

/-- A table with two rows whose grouping value is missing and one with key 1. -/
def nullKeyEx : Frame :=
  ⟨["id", "s"],
    [[.val .vnull, .val (.vstr "x")],
     [.val (.vint 1), .val (.vstr "y")],
     [.val .vnull, .val (.vstr "z")]]⟩

/-- Concrete instance of C7: the two null-keyed rows form one group of
their own (not dropped, not merged with the key-1 group, no error). -/
theorem nest_null_keys_own_group_witness :
    ∃ n : Frame, nest nullKeyEx ["s"] "data" = .ok n
      ∧ (n.rows.map (fun r =>
          (r.take (nestGroupCols nullKeyEx ["s"]).length).map toScalar)).Perm
          (nullKeyEx.rows.map (nestKeyOf nullKeyEx ["s"])).dedup
      ∧ (∀ r ∈ nullKeyEx.rows, nestKeyOf nullKeyEx ["s"] r
          ∈ n.rows.map (fun r =>
            (r.take (nestGroupCols nullKeyEx ["s"]).length).map toScalar))
      ∧ (n.rows.map (fun r =>
          (r.take (nestGroupCols nullKeyEx ["s"]).length).map toScalar)).Nodup :=
  nest_null_keys_own_group nullKeyEx ["s"] "data"
    (by decide) (by decide) (by decide) (by decide) (by decide)
    ⟨[Cell.val Val.vnull, Cell.val (Val.vstr "x")], by decide, by decide⟩

/-! ### Claim C9: unnest preconditions -/

/-- A table whose key column holds a plain integer (neither a nested table
nor the absence marker). -/
def badCellEx : Frame := ⟨["id", "data"], [[.val (.vint 1), .val (.vint 7)]]⟩

/-- C9 (counterexample): a non-table, non-`None` value in the key column
makes `unnest` raise a `ValueError` ("All items in column 'data' must be
DataFrames."), not the `TypeError` the claim states. -/
theorem unnest_bad_cell_raises_valueError :
    unnest badCellEx "data" = .error (.notDataFrames "data")
      ∧ (NestErr.notDataFrames "data").pyClass ≠ PyExc.typeError
      ∧ (NestErr.notDataFrames "data").pyClass = PyExc.valueError :=
  ⟨by decide, by decide, by decide⟩

/-- C9 (amended): unnest requires the key column to exist (otherwise an
error: `ValueError` on a non-empty frame, `KeyError` from `df.drop` on an
empty one) and requires every non-absent key cell to be a table, raising a
`ValueError` (not a `TypeError`) naming the column when some cell is
neither a table nor the absence marker. -/
theorem unnest_precondition_errors (t : Frame) (key : String) :
    (key ∉ t.cols → ∃ e : NestErr, unnest t key = .error e)
    ∧ (t.rows ≠ [] → key ∈ t.cols →
        (∃ r ∈ t.rows, (lookupC t.cols r key).isTab = false
          ∧ (lookupC t.cols r key).isNull = false) →
        unnest t key = .error (.notDataFrames key)
          ∧ (NestErr.notDataFrames key).pyClass = PyExc.valueError) := by
  constructor
  · intro hkey
    by_cases ht : t.rows = []
    · refine ⟨.dropMissing key, ?_⟩
      unfold unnest
      rw [if_pos ht, if_neg (by simpa using hkey)]
    · refine ⟨.keyNotFound key, ?_⟩
      unfold unnest
      rw [if_neg ht, if_pos (by simpa using hkey)]
  · rintro hne hkey ⟨r, hr, htab, hnl⟩
    constructor
    · have hallf : (t.rows.all fun r =>
          (lookupC t.cols r key).isTab || (lookupC t.cols r key).isNull) = false := by
        rw [List.all_eq_false]
        exact ⟨r, hr, by simp [htab, hnl]⟩
      unfold unnest
      rw [if_neg hne, if_neg (by simp [hkey]), if_pos (by simp [hallf])]
    · rfl

/-- Concrete instances of the amended C9: both error paths, applied to
explicit frames. -/
theorem unnest_precondition_errors_witness :
    (∃ e : NestErr, unnest (Frame.mk ["id"] [[Cell.val (Val.vint 1)]]) "data" = .error e)
    ∧ (unnest badCellEx "data" = .error (.notDataFrames "data")
        ∧ (NestErr.notDataFrames "data").pyClass = PyExc.valueError) :=
  ⟨(unnest_precondition_errors (Frame.mk ["id"] [[Cell.val (Val.vint 1)]]) "data").1
      (by decide),
   (unnest_precondition_errors badCellEx "data").2 (by decide) (by decide)
      ⟨[Cell.val (Val.vint 1), Cell.val (Val.vint 7)], by decide, by decide, by decide⟩⟩

/-! ### Claim C10: nesting all columns -/

/-- C10: nesting every column of a non-empty table (leaving an empty
grouping-column set) raises an error - pandas `groupby([])` fails with
"No group keys passed!" - rather than returning a single-group result. -/
theorem nest_all_columns_error (t : Frame) (columns : List String) (key : String)
    (hsub : ∀ c ∈ t.cols, c ∈ columns)
    (hsub' : ∀ c ∈ columns, c ∈ t.cols)
    (h3 : t.rows ≠ []) :
    nest t columns key = .error .noGroupKeys := by
  have g1 : columns.filter (fun c => !(t.cols.contains c)) = [] :=
    List.filter_eq_nil_iff.mpr (fun c hc => by simp [hsub' c hc])
  have g2 : (t.cols.contains key && !(columns.contains key)) = false := by
    by_cases hk : key ∈ t.cols
    · simp [hsub key hk]
    · simp [hk]
  have g4 : nestGroupCols t columns = [] := by
    unfold nestGroupCols
    exact List.filter_eq_nil_iff.mpr (fun c hc => by simp [hsub c hc])
  unfold nest
  rw [if_neg (by simpa using hsub'),
    if_neg (by rw [g2]; exact Bool.false_ne_true), if_neg h3, if_pos g4]

/-- Concrete instance of C10: nesting the only column of a one-row table. -/
theorem nest_all_columns_error_witness :
    nest (Frame.mk ["a"] [[Cell.val (Val.vint 1)]]) ["a"] "data" = .error .noGroupKeys :=
  nest_all_columns_error (Frame.mk ["a"] [[Cell.val (Val.vint 1)]]) ["a"] "data"
    (by decide) (by decide) (by decide)

/-! ## `enforce_schema.py`: `enforce_schema`

Columns carry a dtype (pandas column dtype) and values.  Supported dtype
descriptors: an integer type, a string type, plain `object`, and the two
datetime forms `datetime64[ns]` (zone-less) and `datetime64[ns, <ZONE>]`
(zoned).  Timestamps are modelled at minute granularity: a naive timestamp
is a wall-clock reading, an aware timestamp is an absolute instant plus a
zone, and `wall = instant + tzOffset zone`. -/

inductive Dtype where
  | dtInt
  | dtStr
  | dtObj
  | dtDatetime (tz : Option String)
deriving DecidableEq, Repr

inductive DVal where
  | dnull
  | dint (n : Int)
  | dstr (s : String)
  | dnaive (wall : Int)
  | dzoned (instant : Int) (tz : String)
deriving DecidableEq, Repr

/-- Zone-offset lookup in minutes (the `zoneinfo` collaborator, outside the
repository per spec §1; a fixed offset table, ignoring DST, suffices for
the localize/convert semantics under study). -/
def tzOffset : String → Int
  | "UTC" => 0
  | "US/Eastern" => -300
  | "Europe/Zurich" => 60
  | _ => 0

/-- Errors raised by `enforce_schema` on a present data frame. -/
inductive SchemaErr where
  /-- `ValueError` line 90: required columns absent from a non-empty input. -/
  | missingCols (names : List String)
  /-- `TypeError`/`ValueError` line 116: a cast failed; names the column. -/
  | convertFail (col : String)
  /-- `DateParseError` line 107: a value cannot be parsed as a timestamp. -/
  | dateParseFail (col : String)
  /-- `to_datetime` failure on a column mixing naive and aware timestamps. -/
  | mixedTz (col : String)
deriving DecidableEq, Repr

structure EColumn where
  name : String
  dtype : Dtype
  vals : List DVal
deriving DecidableEq, Repr

structure EFrame where
  cols : List EColumn
deriving DecidableEq, Repr

def EFrame.names (f : EFrame) : List String := f.cols.map (fun c => c.name)

def EFrame.nrows (f : EFrame) : Nat :=
  match f.cols with
  | [] => 0
  | c :: _ => c.vals.length

/-- pandas `df.empty`: true when the frame has no columns or no rows. -/
def EFrame.isEmpty (f : EFrame) : Bool := f.cols.isEmpty || decide (f.nrows = 0)

/-- One row of the schema frame: `column_name`, `dtype`, `mandatory`. -/
structure SchemaRow where
  column_name : String
  dtype : Dtype
  mandatory : Bool
deriving DecidableEq, Repr

/-- `schema.loc[schema["mandatory"]]` (line 72). -/
def requiredCols (schema : List SchemaRow) : List SchemaRow :=
  schema.filter (fun r => r.mandatory)

/-- `schema.loc[~schema["mandatory"]]` (line 73). -/
def optionalCols (schema : List SchemaRow) : List SchemaRow :=
  schema.filter (fun r => !r.mandatory)

/-- The dict merge `{**required, **optional}` (line 74): mandatory columns
first in schema order, then optional columns in schema order (for schemas
whose column names are distinct, as pandas schemas are). -/
def allCols (schema : List SchemaRow) : List SchemaRow :=
  requiredCols schema ++ optionalCols schema

/-- The `data is None` branch (line 82): an empty frame with one typed
empty column per entry of `{**required, **optional}`, in that dict's
order.  This branch returns directly, without the final schema-order
column reselection that the `data is not None` branch performs (line 120). -/
def enforce_schema_none (schema : List SchemaRow) : EFrame :=
  ⟨(allCols schema).map (fun r => ⟨r.column_name, r.dtype, []⟩)⟩

/-- `data[col] = series` (in-place column assignment): replaces the column
in place if the name exists, appends it at the end otherwise. -/
def setCol (f : EFrame) (n : String) (d : Dtype) (vs : List DVal) : EFrame :=
  if f.names.contains n then
    ⟨f.cols.map (fun c => if c.name = n then ⟨n, d, vs⟩ else c)⟩
  else ⟨f.cols ++ [⟨n, d, vs⟩]⟩

def getCol (f : EFrame) (n : String) : Option EColumn :=
  f.cols.find? (fun c => c.name == n)

/-- Decimal digit-string parsing (executable model of Python `int(...)` /
pandas numeric string parsing). -/
def parseDigits : List Char → Nat → Option Nat
  | [], acc => some acc
  | c :: rest, acc =>
      if c.isDigit then parseDigits rest (acc * 10 + (c.toNat - 48)) else none

/-- Parse an optionally-signed decimal integer from a string. -/
def strToIntQ (s : String) : Option Int :=
  match s.data with
  | [] => none
  | '-' :: rest =>
      match rest with
      | [] => none
      | _ => (parseDigits rest 0).map (fun n => -(n : Int))
  | cs => (parseDigits cs 0).map (fun n => (n : Int))

/-- `data[col].astype("int64")` cell-wise; `None` on failure (NaN and
zone-aware timestamps are not representable, strings must be numeric). -/
def castCellInt : DVal → Option DVal
  | .dnull => none
  | .dint n => some (.dint n)
  | .dstr s => (strToIntQ s).map .dint
  | .dnaive w => some (.dint w)
  | .dzoned _ _ => none

/-- `astype` to the string dtype (always succeeds; missing stays missing). -/
def castCellStr : DVal → DVal
  | .dnull => .dnull
  | .dint n => .dstr (toString n)
  | .dstr s => .dstr s
  | .dnaive w => .dstr (toString w)
  | .dzoned i z => .dstr (toString i ++ z)

/-- `pd.to_datetime` cell-wise (line 105): timestamps pass through keeping
their zone state, integers and numeric strings parse to naive timestamps,
anything else raises a `DateParseError` annotated with the column. -/
def parseDatetimeCell (col : String) : DVal → Except SchemaErr DVal
  | .dnull => .ok .dnull
  | .dint n => .ok (.dnaive n)
  | .dstr s =>
      match strToIntQ s with
      | some n => .ok (.dnaive n)
      | none => .error (.dateParseFail col)
  | .dnaive w => .ok (.dnaive w)
  | .dzoned i z => .ok (.dzoned i z)

/-- The parsed column's zone state (`data[col].dt.tz`, line 108): `none`
for a naive column, the common zone for a uniformly-zoned column; a column
mixing naive and aware values (or several zones) fails `to_datetime`. -/
def colTzOf (col : String) (vals : List DVal) : Except SchemaErr (Option String) :=
  match vals.filterMap (fun v => match v with | .dzoned _ z => some z | _ => none) with
  | [] => .ok none
  | z :: zs =>
      if zs.all (fun x => x == z)
          && !(vals.any (fun v => match v with | .dnaive _ => true | _ => false)) then
        .ok (some z)
      else .error (.mixedTz col)

/-- `tz_localize` (spec glossary "Localize"): attach a zone to a naive
timestamp without changing its wall-clock reading, so the instant becomes
`wall - offset`; `tz_localize(None)` on a naive column is the identity.
Missing values stay missing. -/
def tzLocalizeCell (tz : Option String) : DVal → DVal
  | .dnaive w =>
      match tz with
      | none => .dnaive w
      | some z => .dzoned (w - tzOffset z) z
  | v => v

/-- `tz_convert` (spec glossary "Convert"): re-express an aware timestamp
in another zone keeping the absolute instant; `tz_convert(None)` converts
to UTC and drops the zone.  Missing values stay missing. -/
def tzConvertCell (tz : Option String) : DVal → DVal
  | .dzoned i _ =>
      match tz with
      | none => .dnaive i
      | some z => .dzoned i z
  | v => v

/-- Fail-fast traversal for `Option`-valued casts (the column cast fails
as soon as one value is not representable). -/
def mapOption {α β : Type} (f : α → Option β) : List α → Option (List β)
  | [] => some []
  | a :: l =>
      match f a with
      | none => none
      | some b =>
          match mapOption f l with
          | none => none
          | some bs => some (b :: bs)

/-- Fail-fast traversal for `Except`-valued parses. -/
def mapExcept {ε α β : Type} (f : α → Except ε β) : List α → Except ε (List β)
  | [] => .ok []
  | a :: l =>
      match f a with
      | .error e => .error e
      | .ok b =>
          match mapExcept f l with
          | .error e => .error e
          | .ok bs => .ok (b :: bs)

/-- The per-column conversion of lines 96-116: the datetime branch parses
then localizes (naive column) or converts (aware column); other dtypes are
a direct cast, failure annotated with the column name. -/
def castColumn (col : String) (d : Dtype) (vals : List DVal) : Except SchemaErr (List DVal) :=
  match d with
  | .dtObj => .ok vals
  | .dtStr => .ok (vals.map castCellStr)
  | .dtInt =>
      match mapOption castCellInt vals with
      | some vs => .ok vs
      | none => .error (.convertFail col)
  | .dtDatetime tz =>
      match mapExcept (parseDatetimeCell col) vals with
      | .error e => .error e
      | .ok parsed =>
          match colTzOf col parsed with
          | .error e => .error e
          | .ok none => .ok (parsed.map (tzLocalizeCell tz))
          | .ok (some _) => .ok (parsed.map (tzConvertCell tz))

/-- The conversion loop (lines 92-116), mutating the frame column by
column: an absent schema column is added as an all-missing column of the
declared dtype; a present one is cast in place.  On the first failure the
loop stops, returning the frame as mutated so far (columns processed
earlier keep their converted values) together with the error. -/
def enforceConvert (f : EFrame) : List SchemaRow → EFrame × Option SchemaErr
  | [] => (f, none)
  | r :: rest =>
      match getCol f r.column_name with
      | none =>
          enforceConvert
            (setCol f r.column_name r.dtype (List.replicate f.nrows .dnull)) rest
      | some c =>
          match castColumn r.column_name r.dtype c.vals with
          | .ok vs => enforceConvert (setCol f r.column_name r.dtype vs) rest
          | .error e => (f, some e)

/-- The `data.empty` branch (lines 84-86): every schema column is assigned
a fresh empty typed column. -/
def emptyInit (f : EFrame) (schema : List SchemaRow) : EFrame :=
  (allCols schema).foldl (fun acc r => setCol acc r.column_name r.dtype []) f

/-- The mandatory columns absent from the frame (line 88). -/
def missingOf (f : EFrame) (schema : List SchemaRow) : List String :=
  ((requiredCols schema).filter
    (fun r => !(f.names.contains r.column_name))).map (fun r => r.column_name)

/-- Column retention (lines 118-119): drop columns not named in the schema
unless `keep_extra_columns` is set. -/
def enforceKeep (f2 : EFrame) (schema : List SchemaRow) (keepExtra : Bool) : EFrame :=
  if keepExtra then f2 else
    ⟨f2.cols.filter (fun c => (allCols schema).any (fun r => r.column_name == c.name))⟩

/-- Column reordering (line 120): the schema's columns in schema order,
then the remaining columns in their current order.  This builds a fresh
selection, not an in-place mutation. -/
def enforceSelect (f2 : EFrame) (schema : List SchemaRow) (keepExtra : Bool) : EFrame :=
  ⟨(schema.filterMap (fun r => getCol (enforceKeep f2 schema keepExtra) r.column_name))
    ++ (enforceKeep f2 schema keepExtra).cols.filter
        (fun c => !(schema.any (fun r => r.column_name == c.name)))⟩

/-- Model of `enforce_schema` (lines 84-122) for a present data frame.
Returns the pair (caller-visible frame after all in-place mutations,
result): the empty-input initialisation, the mandatory-columns check (which
raises before the conversion loop runs), the conversion loop, then the
fresh column selection and reordering. -/
def enforcePrep (f : EFrame) (schema : List SchemaRow) : EFrame :=
  if f.isEmpty then emptyInit f schema else f

def enforce_schema_run (f : EFrame) (schema : List SchemaRow) (keepExtra : Bool) :
    EFrame × Except SchemaErr EFrame :=
  if missingOf (enforcePrep f schema) schema ≠ [] then
    (enforcePrep f schema,
      .error (.missingCols (missingOf (enforcePrep f schema) schema)))
  else
    match enforceConvert (enforcePrep f schema) (allCols schema) with
    | (f2, some e) => (f2, .error e)
    | (f2, none) => (f2, .ok (enforceSelect f2 schema keepExtra))

/-! ### Claim C4: `enforce(None, schema)` -/

/-- C4 (counterexample): with an optional column declared before a
mandatory one, `enforce_schema(None, schema)` returns the columns in the
order of the dict merge `{**required, **optional}` - mandatory first - not
in the schema's declared order (the `data is None` branch returns before
the line-120 schema-order reselection). -/
theorem enforce_none_not_schema_order :
    (enforce_schema_none [⟨"a", .dtInt, false⟩, ⟨"b", .dtInt, true⟩]).names = ["b", "a"]
      ∧ ([⟨"a", Dtype.dtInt, false⟩, ⟨"b", Dtype.dtInt, true⟩] : List SchemaRow).map
          (fun r => r.column_name) = ["a", "b"]
      ∧ (["b", "a"] : List String) ≠ ["a", "b"] :=
  ⟨by decide, by decide, by decide⟩

/-- C4 (amended): for every schema, `enforce_schema(None, schema)` returns
an empty table holding exactly one column per schema row, each empty and
typed per the schema's dtype; the column set equals the schema's column
set, but the order is the schema's mandatory columns in declared order
followed by its optional columns in declared order (which coincides with
the declared order only when no optional column precedes a mandatory one). -/
theorem enforce_none_columns (schema : List SchemaRow) :
    (enforce_schema_none schema).names
        = (requiredCols schema).map (fun r => r.column_name)
          ++ (optionalCols schema).map (fun r => r.column_name)
      ∧ (∀ c ∈ (enforce_schema_none schema).cols,
          c.vals = [] ∧ ∃ r ∈ schema, r.column_name = c.name ∧ r.dtype = c.dtype)
      ∧ ∀ a : String, a ∈ (enforce_schema_none schema).names
          ↔ a ∈ schema.map (fun r => r.column_name) := by
  have hnames : (enforce_schema_none schema).names
      = (allCols schema).map (fun r => r.column_name) := by
    show ((allCols schema).map _).map _ = _
    rw [List.map_map]
    rfl
  have hmem : ∀ r : SchemaRow, r ∈ allCols schema ↔ r ∈ schema := by
    intro r
    constructor
    · intro h
      rcases List.mem_append.mp h with h | h
      · exact (List.mem_filter.mp h).1
      · exact (List.mem_filter.mp h).1
    · intro h
      by_cases hm : r.mandatory
      · exact List.mem_append.mpr (Or.inl (List.mem_filter.mpr ⟨h, by simp [hm]⟩))
      · exact List.mem_append.mpr (Or.inr (List.mem_filter.mpr ⟨h, by simp [hm]⟩))
  refine ⟨?_, ?_, ?_⟩
  · rw [hnames]
    show ((requiredCols schema ++ optionalCols schema).map _) = _
    rw [List.map_append]
  · intro c hc
    rcases List.mem_map.mp hc with ⟨r, hr, hrc⟩
    exact ⟨by rw [← hrc], r, (hmem r).mp hr, by rw [← hrc], by rw [← hrc]⟩
  · intro a
    rw [hnames]
    constructor
    · intro ha
      rcases List.mem_map.mp ha with ⟨r, hr, hra⟩
      exact List.mem_map.mpr ⟨r, (hmem r).mp hr, hra⟩
    · intro ha
      rcases List.mem_map.mp ha with ⟨r, hr, hra⟩
      exact List.mem_map.mpr ⟨r, (hmem r).mpr hr, hra⟩

/-! ### Helper lemmas for the mutation loop -/

theorem find?_map_replace (cols : List EColumn) (n : String) (d : Dtype) (vs : List DVal)
    (h : ∃ c ∈ cols, c.name = n) :
    (cols.map (fun c => if c.name = n then ⟨n, d, vs⟩ else c)).find?
      (fun c => c.name == n) = some ⟨n, d, vs⟩ := by
  induction cols with
  | nil => rcases h with ⟨c, hc, _⟩; cases hc
  | cons c rest ih =>
    rw [List.map_cons]
    by_cases hcn : c.name = n
    · rw [if_pos hcn]
      have hb : (((⟨n, d, vs⟩ : EColumn)).name == n) = true := by simp
      simp only [List.find?_cons, hb]
    · rw [if_neg hcn]
      have hb : (c.name == n) = false := by simp [hcn]
      simp only [List.find?_cons, hb]
      refine ih ?_
      rcases h with ⟨c', hc', hcn'⟩
      cases List.mem_cons.mp hc' with
      | inl he => exact absurd (he ▸ hcn') hcn
      | inr hm => exact ⟨c', hm, hcn'⟩

theorem getCol_setCol_self (f : EFrame) (n : String) (d : Dtype) (vs : List DVal) :
    getCol (setCol f n d vs) n = some ⟨n, d, vs⟩ := by
  unfold setCol getCol
  by_cases h : f.names.contains n
  · rw [if_pos h]
    have hmem : n ∈ f.cols.map (fun c => c.name) := by
      simpa [EFrame.names] using h
    have hex : ∃ c ∈ f.cols, c.name = n := by
      rcases List.mem_map.mp hmem with ⟨c, hc, hcn⟩
      exact ⟨c, hc, hcn⟩
    exact find?_map_replace f.cols n d vs hex
  · rw [if_neg h]
    show (f.cols ++ [(⟨n, d, vs⟩ : EColumn)]).find? (fun c => c.name == n) = _
    rw [List.find?_append]
    have hnone : f.cols.find? (fun c => c.name == n) = none := by
      rw [List.find?_eq_none]
      intro c hc
      simp only [beq_iff_eq]
      intro hcn
      have hmem : n ∈ f.cols.map (fun c => c.name) := List.mem_map.mpr ⟨c, hc, hcn⟩
      exact h (by simpa [EFrame.names] using hmem)
    have hb : (((⟨n, d, vs⟩ : EColumn)).name == n) = true := by simp
    rw [hnone]
    simp only [List.find?_cons, hb]
    rfl

theorem getCol_setCol_other (f : EFrame) (n : String) (d : Dtype) (vs : List DVal)
    (m : String) (hnm : m ≠ n) :
    getCol (setCol f n d vs) m = getCol f m := by
  unfold setCol getCol
  by_cases h : f.names.contains n
  · rw [if_pos h]
    show (f.cols.map _).find? _ = _
    induction f.cols with
    | nil => rfl
    | cons c rest ih =>
      rw [List.map_cons]
      by_cases hcn : c.name = n
      · rw [if_pos hcn]
        have hb1 : (((⟨n, d, vs⟩ : EColumn)).name == m) = false := by
          simp only [beq_eq_false_iff_ne, ne_eq]
          exact fun hmn => hnm hmn.symm
        have hb2 : (c.name == m) = false := by
          rw [hcn]
          simp only [beq_eq_false_iff_ne, ne_eq]
          exact fun hmn => hnm hmn.symm
        simp only [List.find?_cons, hb1, hb2]
        exact ih
      · rw [if_neg hcn]
        cases hcm : (c.name == m) with
        | true => simp only [List.find?_cons, hcm]
        | false =>
          simp only [List.find?_cons, hcm]
          exact ih
  · rw [if_neg h]
    show (f.cols ++ [(⟨n, d, vs⟩ : EColumn)]).find? (fun c => c.name == m) = _
    rw [List.find?_append]
    have hb : (((⟨n, d, vs⟩ : EColumn)).name == m) = false := by
      simp only [beq_eq_false_iff_ne, ne_eq]
      exact fun hmn => hnm hmn.symm
    have hlast : (([⟨n, d, vs⟩] : List EColumn).find? (fun c => c.name == m)) = none := by
      simp only [List.find?_cons, hb]
      rfl
    rw [hlast]
    cases hfc : f.cols.find? (fun c => c.name == m) <;> rfl

theorem getCol_isSome_iff_contains (f : EFrame) (m : String) :
    (getCol f m).isSome = true ↔ f.names.contains m = true := by
  unfold getCol EFrame.names
  rw [List.find?_isSome]
  constructor
  · rintro ⟨c, hc, hcm⟩
    simp only [beq_iff_eq] at hcm
    simpa using List.mem_map.mpr ⟨c, hc, hcm⟩
  · intro h
    rcases List.mem_map.mp (by simpa using h) with ⟨c, hc, hcm⟩
    exact ⟨c, hc, by simpa using hcm⟩

/-- The conversion loop leaves columns outside its list untouched,
whether it succeeds or stops at an error. -/
theorem enforceConvert_other (L : List SchemaRow) : ∀ (f : EFrame) (m : String),
    m ∉ L.map (fun r => r.column_name) →
    getCol (enforceConvert f L).1 m = getCol f m := by
  induction L with
  | nil => intro f m _; rfl
  | cons r rest ih =>
    intro f m hm
    have hmr : m ≠ r.column_name := fun h => hm (h ▸ List.mem_map.mpr
      ⟨r, List.mem_cons_self r rest, rfl⟩)
    have hmrest : m ∉ rest.map (fun r => r.column_name) := fun h =>
      hm (List.mem_cons_of_mem _ h)
    unfold enforceConvert
    split
    · rw [ih _ m hmrest, getCol_setCol_other _ _ _ _ _ hmr]
    · split
      · rw [ih _ m hmrest, getCol_setCol_other _ _ _ _ _ hmr]
      · rfl

/-- After a successful conversion loop over a duplicate-free column list,
every listed column is present with its declared name and dtype. -/
theorem enforceConvert_ok_spec (L : List SchemaRow) : ∀ (f f2 : EFrame),
    enforceConvert f L = (f2, none) →
    (L.map (fun r => r.column_name)).Nodup →
    ∀ r ∈ L, ∃ vs, getCol f2 r.column_name = some ⟨r.column_name, r.dtype, vs⟩ := by
  induction L with
  | nil => intro f f2 _ _ r hr; exact absurd hr (List.not_mem_nil r)
  | cons r rest ih =>
    intro f f2 heq hnd r' hr'
    have hnd' : (∀ q ∈ rest, ¬ q.column_name = r.column_name)
        ∧ (rest.map (fun q => q.column_name)).Nodup := by simpa using hnd
    have hnotin : r.column_name ∉ rest.map (fun q => q.column_name) := by
      intro hmem
      rcases List.mem_map.mp hmem with ⟨q, hq, hqn⟩
      exact hnd'.1 q hq hqn
    unfold enforceConvert at heq
    split at heq
    · cases List.mem_cons.mp hr' with
      | inl he =>
        subst he
        have hother := enforceConvert_other rest
          (setCol f r'.column_name r'.dtype (List.replicate f.nrows .dnull))
          r'.column_name hnotin
        rw [heq] at hother
        exact ⟨_, hother.trans (getCol_setCol_self _ _ _ _)⟩
      | inr hm => exact ih _ f2 heq hnd'.2 r' hm
    · split at heq
      · rename_i excv vs hcast
        cases List.mem_cons.mp hr' with
        | inl he =>
          subst he
          have hother := enforceConvert_other rest
            (setCol f r'.column_name r'.dtype vs) r'.column_name hnotin
          rw [heq] at hother
          exact ⟨vs, hother.trans (getCol_setCol_self _ _ _ _)⟩
        | inr hm => exact ih _ f2 heq hnd'.2 r' hm
      · simp at heq

/-- `getCol` through a column filter whose predicate holds for every
column of the requested name. -/
theorem getCol_filter (f : EFrame) (q : EColumn → Bool) (m : String)
    (hq : ∀ c : EColumn, c.name = m → q c = true) :
    getCol ⟨f.cols.filter q⟩ m = getCol f m := by
  unfold getCol
  show (f.cols.filter q).find? _ = _
  induction f.cols with
  | nil => rfl
  | cons c rest ih =>
    by_cases hcm : c.name = m
    · rw [List.filter_cons, if_pos (hq c hcm)]
      have hb : (c.name == m) = true := by simpa using hcm
      simp only [List.find?_cons, hb]
    · rw [List.filter_cons]
      have hb : (c.name == m) = false := by simpa using hcm
      by_cases hqc : q c = true
      · rw [if_pos hqc]
        simp only [List.find?_cons, hb]
        exact ih
      · rw [if_neg hqc]
        simp only [List.find?_cons, hb]
        exact ih

/-- Row names of `allCols` are a permutation of the schema's names. -/
theorem allCols_names_perm (schema : List SchemaRow) :
    ((allCols schema).map (fun r => r.column_name)).Perm
      (schema.map (fun r => r.column_name)) := by
  refine List.Perm.map _ ?_
  show (schema.filter _ ++ schema.filter _).Perm schema
  have := List.filter_append_perm (fun r : SchemaRow => r.mandatory) schema
  simpa using this

/-! ### Claim C5: atomicity -/

/-- A two-column frame whose first column converts to int and whose second
does not. -/
def mutateEx : EFrame := ⟨[⟨"a", .dtObj, [.dstr "1"]⟩, ⟨"b", .dtObj, [.dstr "x"]⟩]⟩

def mutateSchema : List SchemaRow := [⟨"a", .dtInt, true⟩, ⟨"b", .dtInt, true⟩]

/-- C5 (counterexample): when the cast of column `b` fails, the error is
raised after column `a` has already been converted in place in the
caller's frame - the conversion loop mutates `data[col]` column by column,
so a partially-converted table is observable on failure. -/
theorem enforce_fail_leaves_partial_mutation :
    enforce_schema_run mutateEx mutateSchema false
        = (⟨[⟨"a", .dtInt, [.dint 1]⟩, ⟨"b", .dtObj, [.dstr "x"]⟩]⟩,
            .error (.convertFail "b"))
      ∧ (⟨[⟨"a", .dtInt, [.dint 1]⟩, ⟨"b", .dtObj, [.dstr "x"]⟩]⟩ : EFrame) ≠ mutateEx
      ∧ getCol (⟨[⟨"a", .dtInt, [.dint 1]⟩, ⟨"b", .dtObj, [.dstr "x"]⟩]⟩ : EFrame) "a"
          ≠ getCol mutateEx "a" :=
  ⟨by decide, by decide, by decide⟩

/-- C5 (amended): `enforce_schema` never returns a partially-converted
table: when it returns a table at all, every schema column is present in
it, carrying its declared dtype; on failure it raises and returns nothing,
though the caller's input frame may by then have been partially mutated in
place (columns processed before the failing one are already converted or
added). -/
theorem enforce_run_ok_inv (f : EFrame) (schema : List SchemaRow) (keep : Bool)
    (g : EFrame) (hok : (enforce_schema_run f schema keep).2 = .ok g) :
    ∃ f2 : EFrame,
      enforceConvert (enforcePrep f schema) (allCols schema)
        = (f2, none) ∧ g = enforceSelect f2 schema keep := by
  unfold enforce_schema_run at hok
  split at hok
  · exact absurd hok (by simp)
  · split at hok
    · exact absurd hok (by simp)
    · rename_i f2 hconv
      simp only [Except.ok.injEq] at hok
      exact ⟨f2, hconv, hok.symm⟩

theorem enforce_ok_complete (f : EFrame) (schema : List SchemaRow) (keepExtra : Bool)
    (g : EFrame)
    (hnodup : (schema.map (fun r => r.column_name)).Nodup)
    (hok : (enforce_schema_run f schema keepExtra).2 = .ok g) :
    ∀ r ∈ schema, ∃ c ∈ g.cols, c.name = r.column_name ∧ c.dtype = r.dtype := by
  have hmemall : ∀ r : SchemaRow, r ∈ schema → r ∈ allCols schema := by
    intro r h
    by_cases hm : r.mandatory
    · exact List.mem_append.mpr (Or.inl (List.mem_filter.mpr ⟨h, by simp [hm]⟩))
    · exact List.mem_append.mpr (Or.inr (List.mem_filter.mpr ⟨h, by simp [hm]⟩))
  have hndall : ((allCols schema).map (fun r => r.column_name)).Nodup :=
    (allCols_names_perm schema).symm.nodup hnodup
  rcases enforce_run_ok_inv f schema keepExtra g hok with ⟨f2, hconv, hg⟩
  subst hg
  intro r hr
  rcases enforceConvert_ok_spec (allCols schema) _ f2 hconv hndall r
    (hmemall r hr) with ⟨vs, hget⟩
  have hf3 : getCol (enforceKeep f2 schema keepExtra) r.column_name
      = some ⟨r.column_name, r.dtype, vs⟩ := by
    unfold enforceKeep
    by_cases hk : keepExtra
    · rw [if_pos hk]
      exact hget
    · rw [if_neg hk]
      rw [getCol_filter f2 _ r.column_name ?_]
      · exact hget
      · intro c hcn
        rw [List.any_eq_true]
        exact ⟨r, hmemall r hr, by simp [hcn]⟩
  refine ⟨⟨r.column_name, r.dtype, vs⟩, ?_, rfl, rfl⟩
  show _ ∈ (enforceSelect f2 schema keepExtra).cols
  unfold enforceSelect
  refine List.mem_append.mpr (Or.inl ?_)
  exact List.mem_filterMap.mpr ⟨r, hr, hf3⟩

/-- Concrete instance of the amended C5: a successful run returns a frame
holding the schema's mandatory column at its declared dtype. -/
theorem enforce_ok_complete_witness :
    ∃ c ∈ (EFrame.mk [⟨"a", .dtInt, [.dint 1]⟩, ⟨"c", .dtStr, [.dnull]⟩]).cols,
      c.name = ("a" : String) ∧ c.dtype = Dtype.dtInt :=
  enforce_ok_complete ⟨[⟨"a", .dtObj, [.dstr "1"]⟩]⟩
    [⟨"a", .dtInt, true⟩, ⟨"c", .dtStr, false⟩] false
    ⟨[⟨"a", .dtInt, [.dint 1]⟩, ⟨"c", .dtStr, [.dnull]⟩]⟩
    (by decide) (by decide) ⟨"a", Dtype.dtInt, true⟩ (by decide)

/-! ### Claim C8: mandatory-column check and empty input -/

theorem setCol_allNil (f : EFrame) (n : String) (d : Dtype)
    (h : ∀ c ∈ f.cols, c.vals = []) :
    ∀ c ∈ (setCol f n d []).cols, c.vals = [] := by
  intro c hc
  unfold setCol at hc
  by_cases hcont : f.names.contains n
  · rw [if_pos hcont] at hc
    rcases List.mem_map.mp hc with ⟨c', hc', hcc⟩
    by_cases hcn : c'.name = n
    · rw [if_pos hcn] at hcc
      rw [← hcc]
    · rw [if_neg hcn] at hcc
      rw [← hcc]
      exact h c' hc'
  · rw [if_neg hcont] at hc
    rcases List.mem_append.mp hc with hm | hm
    · exact h c hm
    · rcases List.mem_singleton.mp hm with rfl
      rfl

theorem nrows_allNil (f : EFrame) (h : ∀ c ∈ f.cols, c.vals = []) : f.nrows = 0 := by
  unfold EFrame.nrows
  cases hc : f.cols with
  | nil => rfl
  | cons c rest =>
    have hcm : c ∈ f.cols := by rw [hc]; exact List.mem_cons_self c rest
    show c.vals.length = 0
    rw [h c hcm]
    rfl

theorem isEmpty_of_allNil (f : EFrame) (h : ∀ c ∈ f.cols, c.vals = []) :
    f.isEmpty = true := by
  unfold EFrame.isEmpty
  rw [nrows_allNil f h]
  simp

theorem castColumn_nil (col : String) (d : Dtype) : castColumn col d [] = .ok [] := by
  cases d with
  | dtInt => rfl
  | dtStr => rfl
  | dtObj => rfl
  | dtDatetime tz => rfl

theorem foldl_setCol_other (L : List SchemaRow) : ∀ (f : EFrame) (m : String),
    m ∉ L.map (fun r => r.column_name) →
    getCol (L.foldl (fun acc q => setCol acc q.column_name q.dtype []) f) m
      = getCol f m := by
  induction L with
  | nil => intro f m _; rfl
  | cons r rest ih =>
    intro f m hm
    have hmr : m ≠ r.column_name := fun h => hm (h ▸ List.mem_map.mpr
      ⟨r, List.mem_cons_self r rest, rfl⟩)
    have hmrest : m ∉ rest.map (fun q => q.column_name) := fun h =>
      hm (List.mem_cons_of_mem _ h)
    rw [List.foldl_cons, ih _ m hmrest, getCol_setCol_other _ _ _ _ _ hmr]

theorem foldl_setCol_spec (L : List SchemaRow) : ∀ (f : EFrame),
    (L.map (fun r => r.column_name)).Nodup →
    ∀ r ∈ L,
      getCol (L.foldl (fun acc q => setCol acc q.column_name q.dtype []) f) r.column_name
        = some ⟨r.column_name, r.dtype, []⟩ := by
  induction L with
  | nil => intro f _ r hr; exact absurd hr (List.not_mem_nil r)
  | cons r rest ih =>
    intro f hnd r' hr'
    have hnd' : (∀ q ∈ rest, ¬ q.column_name = r.column_name)
        ∧ (rest.map (fun q => q.column_name)).Nodup := by simpa using hnd
    rw [List.foldl_cons]
    cases List.mem_cons.mp hr' with
    | inl he =>
      subst he
      have hnotin : r'.column_name ∉ rest.map (fun q => q.column_name) := by
        intro hmem
        rcases List.mem_map.mp hmem with ⟨q, hq, hqn⟩
        exact hnd'.1 q hq hqn
      rw [foldl_setCol_other rest _ r'.column_name hnotin, getCol_setCol_self]
    | inr hm => exact ih _ hnd'.2 r' hm

theorem emptyInit_allNil (schema : List SchemaRow) (f : EFrame)
    (h : ∀ c ∈ f.cols, c.vals = []) :
    ∀ c ∈ (emptyInit f schema).cols, c.vals = [] := by
  unfold emptyInit
  generalize allCols schema = L
  induction L generalizing f with
  | nil => exact h
  | cons r rest ih =>
    rw [List.foldl_cons]
    exact ih _ (setCol_allNil f r.column_name r.dtype h)

theorem enforceConvert_allNil (L : List SchemaRow) : ∀ (f : EFrame),
    (∀ c ∈ f.cols, c.vals = []) →
    ∃ f2 : EFrame, enforceConvert f L = (f2, none) ∧ ∀ c ∈ f2.cols, c.vals = [] := by
  induction L with
  | nil => intro f h; exact ⟨f, rfl, h⟩
  | cons r rest ih =>
    intro f h
    cases hgc : getCol f r.column_name with
    | none =>
      have hrep : List.replicate f.nrows DVal.dnull = [] := by
        rw [nrows_allNil f h]
        rfl
      have hstep : enforceConvert f (r :: rest)
          = enforceConvert (setCol f r.column_name r.dtype []) rest := by
        simp only [enforceConvert, hgc, hrep]
      rw [hstep]
      exact ih _ (setCol_allNil f r.column_name r.dtype h)
    | some c =>
      have hcv : c.vals = [] := h c (List.mem_of_find?_eq_some hgc)
      have hstep : enforceConvert f (r :: rest)
          = enforceConvert (setCol f r.column_name r.dtype []) rest := by
        simp only [enforceConvert, hgc, hcv, castColumn_nil]
      rw [hstep]
      exact ih _ (setCol_allNil f r.column_name r.dtype h)

/-- C8: the mandatory-columns check and the empty-input exemption.  For a
non-empty input missing mandatory columns, `enforce_schema` fails with an
error listing exactly the missing names, and the check fires before any
dtype coercion (the caller's frame is returned untouched next to the
error).  For an input that is empty (rows-wise, possibly with columns
already present), the missing schema columns are added instead: the run
succeeds and every schema column is present in the result. -/
theorem enforce_missing_check (f : EFrame) (schema : List SchemaRow) (keepExtra : Bool)
    (hnodup : (schema.map (fun r => r.column_name)).Nodup) :
    (f.isEmpty = false → missingOf f schema ≠ [] →
      enforce_schema_run f schema keepExtra
        = (f, .error (.missingCols (missingOf f schema))))
    ∧ ((∀ c ∈ f.cols, c.vals = []) →
        ∃ g : EFrame, (enforce_schema_run f schema keepExtra).2 = .ok g
          ∧ ∀ r ∈ schema, r.column_name ∈ g.names) := by
  have hmemall : ∀ r : SchemaRow, r ∈ schema → r ∈ allCols schema := by
    intro r h
    by_cases hm : r.mandatory
    · exact List.mem_append.mpr (Or.inl (List.mem_filter.mpr ⟨h, by simp [hm]⟩))
    · exact List.mem_append.mpr (Or.inr (List.mem_filter.mpr ⟨h, by simp [hm]⟩))
  have hndall : ((allCols schema).map (fun r => r.column_name)).Nodup :=
    (allCols_names_perm schema).symm.nodup hnodup
  constructor
  · intro hne hmiss
    have hprep : enforcePrep f schema = f := by
      unfold enforcePrep
      rw [hne]
      rfl
    unfold enforce_schema_run
    rw [hprep, if_pos hmiss]
  · intro hallnil
    have hempty : f.isEmpty = true := isEmpty_of_allNil f hallnil
    have hprep : enforcePrep f schema = emptyInit f schema := by
      unfold enforcePrep
      rw [hempty]
      rfl
    have hinit : ∀ r ∈ allCols schema,
        getCol (emptyInit f schema) r.column_name = some ⟨r.column_name, r.dtype, []⟩ :=
      foldl_setCol_spec (allCols schema) f hndall
    have hmiss : missingOf (emptyInit f schema) schema = [] := by
      unfold missingOf
      have : (requiredCols schema).filter
          (fun r => !((emptyInit f schema).names.contains r.column_name)) = [] := by
        rw [List.filter_eq_nil_iff]
        intro r hr
        have hrall : r ∈ allCols schema := List.mem_append.mpr (Or.inl hr)
        have hsome : (getCol (emptyInit f schema) r.column_name).isSome = true := by
          rw [hinit r hrall]
          rfl
        have hcontains := (getCol_isSome_iff_contains _ _).mp hsome
        have hmem : r.column_name ∈ (emptyInit f schema).names := by
          simpa using hcontains
        simp [hmem]
      rw [this]
      rfl
    have hinitnil : ∀ c ∈ (emptyInit f schema).cols, c.vals = [] :=
      emptyInit_allNil schema f hallnil
    rcases enforceConvert_allNil (allCols schema) (emptyInit f schema) hinitnil
      with ⟨f2, hconv, _⟩
    refine ⟨enforceSelect f2 schema keepExtra, ?_, ?_⟩
    · unfold enforce_schema_run
      rw [hprep, if_neg (by simp [hmiss]), hconv]
    · intro r hr
      rcases enforceConvert_ok_spec (allCols schema) _ f2 hconv hndall r
        (hmemall r hr) with ⟨vs, hget⟩
      have hf3 : getCol (enforceKeep f2 schema keepExtra) r.column_name
          = some ⟨r.column_name, r.dtype, vs⟩ := by
        unfold enforceKeep
        by_cases hk : keepExtra
        · rw [if_pos hk]
          exact hget
        · rw [if_neg hk]
          rw [getCol_filter f2 _ r.column_name ?_]
          · exact hget
          · intro c hcn
            rw [List.any_eq_true]
            exact ⟨r, hmemall r hr, by simp [hcn]⟩
      show r.column_name ∈ (enforceSelect f2 schema keepExtra).cols.map _
      refine List.mem_map.mpr ⟨⟨r.column_name, r.dtype, vs⟩, ?_, rfl⟩
      unfold enforceSelect
      refine List.mem_append.mpr (Or.inl ?_)
      exact List.mem_filterMap.mpr ⟨r, hr, hf3⟩

/-- Concrete instances of C8: the missing-mandatory error on a non-empty
frame with the caller's frame untouched, and the empty-with-columns frame
succeeding with all schema columns added. -/
theorem enforce_missing_check_witness :
    (enforce_schema_run ⟨[⟨"Column3", .dtObj, [.dstr "data"]⟩]⟩
        [⟨"Column1", .dtInt, true⟩] false
      = (⟨[⟨"Column3", .dtObj, [.dstr "data"]⟩]⟩,
          .error (.missingCols (missingOf ⟨[⟨"Column3", .dtObj, [.dstr "data"]⟩]⟩
            [⟨"Column1", .dtInt, true⟩]))))
    ∧ (∃ g : EFrame, (enforce_schema_run ⟨[⟨"a", .dtObj, []⟩]⟩
          [⟨"a", .dtInt, true⟩, ⟨"b", .dtInt, false⟩] false).2 = .ok g
        ∧ ∀ r ∈ ([⟨"a", Dtype.dtInt, true⟩, ⟨"b", Dtype.dtInt, false⟩] : List SchemaRow),
            r.column_name ∈ g.names) :=
  ⟨(enforce_missing_check ⟨[⟨"Column3", .dtObj, [.dstr "data"]⟩]⟩
      [⟨"Column1", .dtInt, true⟩] false (by decide)).1 (by decide) (by decide),
   (enforce_missing_check ⟨[⟨"a", .dtObj, []⟩]⟩
      [⟨"a", .dtInt, true⟩, ⟨"b", .dtInt, false⟩] false (by decide)).2 (by decide)⟩

/-! ### Claim C6: zoned datetime targets -/

/-- The absolute instant of a value (aware timestamps only). -/
def instantOf : DVal → Option Int
  | .dzoned i _ => some i
  | _ => none

/-- The value is missing or an aware timestamp in zone `z₀`. -/
def isZonedInOrNull (z₀ : String) : DVal → Bool
  | .dzoned _ z => z == z₀
  | .dnull => true
  | _ => false

/-- The value is an aware timestamp. -/
def isZonedB : DVal → Bool
  | .dzoned _ _ => true
  | _ => false

/-- The value is missing or a naive timestamp. -/
def isNaiveOrNull : DVal → Bool
  | .dnaive _ => true
  | .dnull => true
  | _ => false

theorem mapExcept_id {ε α : Type} (f : α → Except ε α) :
    ∀ (l : List α), (∀ v ∈ l, f v = .ok v) → mapExcept f l = .ok l
  | [], _ => rfl
  | a :: l, h => by
    have ha := h a (List.mem_cons_self a l)
    have hrest := mapExcept_id f l (fun v hv => h v (List.mem_cons_of_mem a hv))
    simp only [mapExcept, ha, hrest]

/-- C6: enforcing a zoned datetime dtype `datetime64[ns, z]`.  A column
that already carries a zone `z₀` is *converted* - each instant is
preserved, merely re-expressed in `z` (identical to the manual
`tz_convert`) - never localized; a column carrying no zone is *localized* -
the zone is attached without shifting the wall-clock reading.  Localizing
the wall-clock reading of an already-zoned value would mis-shift the
instant whenever the two zones' offsets differ. -/
theorem enforce_datetime_convert_not_localize (colName z z₀ : String)
    (valsZ valsN : List DVal)
    (hz : ∀ v ∈ valsZ, isZonedInOrNull z₀ v = true)
    (hzsome : valsZ.any isZonedB = true)
    (hn : ∀ v ∈ valsN, isNaiveOrNull v = true) :
    castColumn colName (.dtDatetime (some z)) valsZ
        = .ok (valsZ.map (tzConvertCell (some z)))
      ∧ valsZ.map instantOf = (valsZ.map (tzConvertCell (some z))).map instantOf
      ∧ castColumn colName (.dtDatetime (some z)) valsN
          = .ok (valsN.map (tzLocalizeCell (some z)))
      ∧ (∀ w : Int, tzLocalizeCell (some z) (.dnaive w) = .dzoned (w - tzOffset z) z)
      ∧ (∀ i : Int, tzOffset z₀ ≠ tzOffset z →
          tzLocalizeCell (some z) (.dnaive (i + tzOffset z₀)) ≠ .dzoned i z) := by
  have hcases : ∀ v ∈ valsZ, v = .dnull ∨ ∃ i, v = .dzoned i z₀ := by
    intro v hv
    have := hz v hv
    cases v with
    | dnull => exact Or.inl rfl
    | dint n => simp [isZonedInOrNull] at this
    | dstr s => simp [isZonedInOrNull] at this
    | dnaive w => simp [isZonedInOrNull] at this
    | dzoned i zz =>
      right
      refine ⟨i, ?_⟩
      have : zz = z₀ := by simpa [isZonedInOrNull] using this
      rw [this]
  have hncases : ∀ v ∈ valsN, v = .dnull ∨ ∃ w, v = .dnaive w := by
    intro v hv
    have := hn v hv
    cases v with
    | dnull => exact Or.inl rfl
    | dint n => simp [isNaiveOrNull] at this
    | dstr s => simp [isNaiveOrNull] at this
    | dnaive w => exact Or.inr ⟨w, rfl⟩
    | dzoned i zz => simp [isNaiveOrNull] at this
  have hparseZ : mapExcept (parseDatetimeCell colName) valsZ = .ok valsZ := by
    refine mapExcept_id _ valsZ (fun v hv => ?_)
    rcases hcases v hv with rfl | ⟨i, rfl⟩ <;> rfl
  have hparseN : mapExcept (parseDatetimeCell colName) valsN = .ok valsN := by
    refine mapExcept_id _ valsN (fun v hv => ?_)
    rcases hncases v hv with rfl | ⟨w, rfl⟩ <;> rfl
  have hzonesall : ∀ x ∈ valsZ.filterMap
      (fun v => match v with | DVal.dzoned _ zz => some zz | _ => none), x = z₀ := by
    intro x hx
    rcases List.mem_filterMap.mp hx with ⟨v, hv, hfv⟩
    rcases hcases v hv with rfl | ⟨i, rfl⟩
    · cases hfv
    · simpa using hfv.symm
  have hzonesne : valsZ.filterMap
      (fun v => match v with | DVal.dzoned _ zz => some zz | _ => none) ≠ [] := by
    rcases List.any_eq_true.mp hzsome with ⟨w, hw, hwz⟩
    cases w with
    | dzoned i zz =>
      intro hnil
      have hmem : zz ∈ valsZ.filterMap
          (fun v => match v with | DVal.dzoned _ zz => some zz | _ => none) :=
        List.mem_filterMap.mpr ⟨.dzoned i zz, hw, rfl⟩
      rw [hnil] at hmem
      cases hmem
    | dnull => simp [isZonedB] at hwz
    | dint n => simp [isZonedB] at hwz
    | dstr s => simp [isZonedB] at hwz
    | dnaive w => simp [isZonedB] at hwz
  have hnonaive : (valsZ.any
      (fun v => match v with | DVal.dnaive _ => true | _ => false)) = false := by
    rw [List.any_eq_false]
    intro v hv
    rcases hcases v hv with rfl | ⟨i, rfl⟩ <;> simp
  have hctzZ : colTzOf colName valsZ = .ok (some z₀) := by
    unfold colTzOf
    rcases List.exists_cons_of_ne_nil hzonesne with ⟨z', zs, hzs⟩
    rw [hzs]
    have hz' : z' = z₀ := hzonesall z' (by rw [hzs]; exact List.mem_cons_self z' zs)
    have hall : zs.all (fun x => x == z') = true := by
      rw [List.all_eq_true]
      intro x hx
      have hx' : x ∈ valsZ.filterMap
          (fun v => match v with | DVal.dzoned _ zz => some zz | _ => none) := by
        rw [hzs]
        exact List.mem_cons_of_mem z' hx
      rw [hzonesall x hx', hz']
      simp
    show (if ((zs.all fun x => x == z')
        && !(valsZ.any (fun v => match v with | DVal.dnaive _ => true | _ => false)))
          = true then
        Except.ok (some z') else Except.error (SchemaErr.mixedTz colName))
      = Except.ok (some z₀)
    rw [hall, hnonaive, hz']
    rfl
  have hctzN : colTzOf colName valsN = .ok none := by
    unfold colTzOf
    have : valsN.filterMap
        (fun v => match v with | DVal.dzoned _ zz => some zz | _ => none) = [] := by
      rw [List.filterMap_eq_nil_iff]
      intro v hv
      rcases hncases v hv with rfl | ⟨w, rfl⟩ <;> rfl
    rw [this]
  refine ⟨?_, ?_, ?_, fun w => rfl, ?_⟩
  · simp only [castColumn, hparseZ, hctzZ]
  · rw [List.map_map]
    refine List.map_congr_left (fun v hv => ?_)
    rcases hcases v hv with rfl | ⟨i, rfl⟩ <;> rfl
  · simp only [castColumn, hparseN, hctzN]
  · intro i hne h
    have hinj : i + tzOffset z₀ - tzOffset z = i ∧ z = z :=
      DVal.dzoned.inj h
    rcases hinj with ⟨h1, _⟩
    omega

/-- Concrete instance of C6: a UTC column converted to US/Eastern keeps its
instant (equal to manual `tz_convert`), while a naive column is localized. -/
theorem enforce_datetime_convert_not_localize_witness :
    castColumn "Date" (.dtDatetime (some "US/Eastern")) [.dzoned 720 "UTC", .dnull]
        = .ok ([DVal.dzoned 720 "UTC", DVal.dnull].map (tzConvertCell (some "US/Eastern")))
      ∧ [DVal.dzoned 720 "UTC", DVal.dnull].map instantOf
          = ([DVal.dzoned 720 "UTC", DVal.dnull].map
              (tzConvertCell (some "US/Eastern"))).map instantOf
      ∧ castColumn "Date" (.dtDatetime (some "US/Eastern")) [.dnaive 720, .dnull]
          = .ok ([DVal.dnaive 720, DVal.dnull].map (tzLocalizeCell (some "US/Eastern")))
      ∧ (∀ w : Int, tzLocalizeCell (some "US/Eastern") (.dnaive w)
          = .dzoned (w - tzOffset "US/Eastern") "US/Eastern")
      ∧ (∀ i : Int, tzOffset "UTC" ≠ tzOffset "US/Eastern" →
          tzLocalizeCell (some "US/Eastern") (.dnaive (i + tzOffset "UTC"))
            ≠ .dzoned i "US/Eastern") :=
  enforce_datetime_convert_not_localize "Date" "US/Eastern" "UTC"
    [.dzoned 720 "UTC", .dnull] [.dnaive 720, .dnull]
    (by decide) (by decide) (by decide)

end ConsistentDf
